import Mathlib

/-
Verification of the mini-shogi (5x5 shogi) rules engine and alpha-beta
search AI.  The definitions below are a shallow embedding of the Go
source (src/main.go): the 5x5 grid is represented as a flat row-major
list of 25 cells, Go slices become Lean lists, Go ints become Lean Int,
and every function mirrors the corresponding Go function statement by
statement.  The iteration order of the Go map used in GetDropMoves is
unspecified at runtime, so the drop generator is parameterised by the
list of distinct kinds to iterate; the canonical instantiation uses the
deduplicated hand.
-/

set_option linter.unusedVariables false
set_option maxRecDepth 8000

namespace MiniShogi

/-- PieceType: the ten piece kinds plus the Empty sentinel (Go iota enum). -/
inductive PieceType where
  | Empty
  | King
  | Gold
  | Silver
  | Bishop
  | Rook
  | Pawn
  | PromotedSilver
  | PromotedBishop
  | PromotedRook
  | PromotedPawn
  deriving DecidableEq, Repr

/-- Player: None marks an empty cell's owner. -/
inductive Player where
  | None
  | First
  | Second
  deriving DecidableEq, Repr

/-- Piece: (kind, owner) pair, as in the Go struct. -/
structure Piece where
  type : PieceType
  owner : Player
  deriving DecidableEq, Repr

/-- Move: Go's Move struct.  FromRow/FromCol are -1 for drops. -/
structure Move where
  fromRow : Int
  fromCol : Int
  toRow : Int
  toCol : Int
  isDrop : Bool
  dropPiece : PieceType
  promote : Bool
  deriving DecidableEq, Repr

/-- Board: Go's Board struct; Cells is the 5x5 grid flattened row-major
(index row*5+col), the two hands are lists, CurrentTurn the side to move. -/
structure Board where
  cells : List Piece
  firstHand : List PieceType
  secondHand : List PieceType
  currentTurn : Player
  deriving DecidableEq, Repr

/-- emptyPiece: the zero value of Go's Piece struct. -/
def emptyPiece : Piece := ⟨PieceType.Empty, Player.None⟩

/-- idx: row-major index of a cell of the 5x5 grid. -/
def idx (r c : Int) : Nat := (r * 5 + c).toNat

/-- getCell: read Cells[r][c]; out-of-range reads yield the empty piece
(the Go code only reads in-bounds cells). -/
def getCell (g : List Piece) (r c : Int) : Piece :=
  if 0 ≤ r ∧ r < 5 ∧ 0 ≤ c ∧ c < 5 then g.getD (idx r c) emptyPiece else emptyPiece

/-- setCell: write Cells[r][c]; out-of-range writes are dropped
(the Go code only writes in-bounds cells). -/
def setCell (g : List Piece) (r c : Int) (p : Piece) : List Piece :=
  if 0 ≤ r ∧ r < 5 ∧ 0 ≤ c ∧ c < 5 then g.set (idx r c) p else g

/-- NewBoard: the fixed initial layout of Go's NewBoard, built by the same
twelve cell assignments on a zeroed grid, First to move. -/
def NewBoard : Board :=
  let g0 := List.replicate 25 emptyPiece
  let g1 := setCell g0 0 0 ⟨PieceType.Rook, Player.Second⟩
  let g2 := setCell g1 0 1 ⟨PieceType.Bishop, Player.Second⟩
  let g3 := setCell g2 0 2 ⟨PieceType.Silver, Player.Second⟩
  let g4 := setCell g3 0 3 ⟨PieceType.Gold, Player.Second⟩
  let g5 := setCell g4 0 4 ⟨PieceType.King, Player.Second⟩
  let g6 := setCell g5 1 4 ⟨PieceType.Pawn, Player.Second⟩
  let g7 := setCell g6 4 4 ⟨PieceType.Rook, Player.First⟩
  let g8 := setCell g7 4 3 ⟨PieceType.Bishop, Player.First⟩
  let g9 := setCell g8 4 2 ⟨PieceType.Silver, Player.First⟩
  let g10 := setCell g9 4 1 ⟨PieceType.Gold, Player.First⟩
  let g11 := setCell g10 4 0 ⟨PieceType.King, Player.First⟩
  let g12 := setCell g11 3 0 ⟨PieceType.Pawn, Player.First⟩
  { cells := g12, firstHand := [], secondHand := [], currentTurn := Player.First }

/-- isInBoard: Go's bounds check. -/
def isInBoard (row col : Int) : Bool :=
  decide (0 ≤ row ∧ row < 5 ∧ 0 ≤ col ∧ col < 5)

/-- isValidMove: destination in bounds and not occupied by the moving
piece's owner (Go's isValidMove). -/
def isValidMove (b : Board) (fromRow fromCol toRow toCol : Int) : Bool :=
  if isInBoard toRow toCol then
    decide ((getCell b.cells toRow toCol).owner ≠ (getCell b.cells fromRow fromCol).owner)
  else false

/-- canPromote: a one-rank promotion zone, row 0 for First and row 4 for
Second (Go's canPromote). -/
def canPromote (player : Player) (row : Int) : Bool :=
  if player = Player.First then decide (row ≤ 0) else decide (row ≥ 4)

/-- getGoldMoves: the six gold step offsets, mirrored per owner. -/
def getGoldMoves (player : Player) : List (Int × Int) :=
  if player = Player.First then
    [(-1, -1), (-1, 0), (-1, 1), (0, -1), (0, 1), (1, 0)]
  else
    [(1, -1), (1, 0), (1, 1), (0, -1), (0, 1), (-1, 0)]

/-- getSilverMoves: the five silver step offsets, mirrored per owner. -/
def getSilverMoves (player : Player) : List (Int × Int) :=
  if player = Player.First then
    [(-1, -1), (-1, 0), (-1, 1), (1, -1), (1, 1)]
  else
    [(1, -1), (1, 0), (1, 1), (-1, -1), (-1, 1)]

/-- hasPawnInColumn: an unpromoted pawn of the given player anywhere in
the column (Go's hasPawnInColumn). -/
def hasPawnInColumn (b : Board) (col : Int) (player : Player) : Bool :=
  (List.range 5).any fun r =>
    decide ((getCell b.cells r col).owner = player ∧
            (getCell b.cells r col).type = PieceType.Pawn)

/-- stepMoves: one non-promoting move per valid step offset, in offset
order (the shared shape of the King/Gold/extra-step loops). -/
def stepMoves (b : Board) (row col : Int) (dirs : List (Int × Int)) : List Move :=
  dirs.flatMap fun d =>
    let nr := row + d.1
    let nc := col + d.2
    if isValidMove b row col nr nc then
      [⟨row, col, nr, nc, false, PieceType.Empty, false⟩]
    else []

/-- slideLoop: Go's inner sliding loop for Bishop/Rook, positions
row + d*i for i = 1..4, stopping at the board edge or the first occupied
cell; unpromoted Bishop/Rook get a promoting variant before the normal
move when the destination is in zone.  Invoked with fuel = 4; at fuel
n+1 the loop counter is i = 5-(n+1). -/
def slideLoop (b : Board) (piece : Piece) (row col : Int) (d : Int × Int) : Nat → List Move
  | 0 => []
  | n + 1 =>
    let i : Int := ((5 - (n + 1) : Nat) : Int)
    let nr := row + d.1 * i
    let nc := col + d.2 * i
    if ¬ isInBoard nr nc then []
    else if (getCell b.cells nr nc).owner = piece.owner then []
    else
      ((if (piece.type = PieceType.Bishop ∨ piece.type = PieceType.Rook) ∧
            canPromote piece.owner nr then
          [⟨row, col, nr, nc, false, PieceType.Empty, true⟩]
        else []) ++
       [⟨row, col, nr, nc, false, PieceType.Empty, false⟩]) ++
      (if (getCell b.cells nr nc).owner ≠ Player.None then []
       else slideLoop b piece row col d n)

/-- kingDirs: the eight king step offsets. -/
def kingDirs : List (Int × Int) :=
  [(-1, -1), (-1, 0), (-1, 1), (0, -1), (0, 1), (1, -1), (1, 0), (1, 1)]

/-- bishopDirs: the four diagonal sliding directions. -/
def bishopDirs : List (Int × Int) := [(-1, -1), (-1, 1), (1, -1), (1, 1)]

/-- rookDirs: the four orthogonal sliding directions. -/
def rookDirs : List (Int × Int) := [(-1, 0), (1, 0), (0, -1), (0, 1)]

/-- GetPossibleMoves: Go's GetPossibleMoves, the per-kind move generator
for the piece at (row, col) of the side to move. -/
def GetPossibleMoves (b : Board) (row col : Int) : List Move :=
  let piece := getCell b.cells row col
  if piece.owner = Player.None ∨ piece.owner ≠ b.currentTurn then []
  else
    match piece.type with
    | PieceType.King => stepMoves b row col kingDirs
    | PieceType.Gold => stepMoves b row col (getGoldMoves piece.owner)
    | PieceType.PromotedSilver => stepMoves b row col (getGoldMoves piece.owner)
    | PieceType.PromotedPawn => stepMoves b row col (getGoldMoves piece.owner)
    | PieceType.Silver =>
      (getSilverMoves piece.owner).flatMap fun d =>
        let nr := row + d.1
        let nc := col + d.2
        if isValidMove b row col nr nc then
          (if canPromote piece.owner nr then
             [⟨row, col, nr, nc, false, PieceType.Empty, true⟩]
           else []) ++
          [⟨row, col, nr, nc, false, PieceType.Empty, false⟩]
        else []
    | PieceType.Bishop =>
      bishopDirs.flatMap fun d => slideLoop b piece row col d 4
    | PieceType.PromotedBishop =>
      (bishopDirs.flatMap fun d => slideLoop b piece row col d 4) ++
      stepMoves b row col rookDirs
    | PieceType.Rook =>
      rookDirs.flatMap fun d => slideLoop b piece row col d 4
    | PieceType.PromotedRook =>
      (rookDirs.flatMap fun d => slideLoop b piece row col d 4) ++
      stepMoves b row col bishopDirs
    | PieceType.Pawn =>
      let dir : Int := if piece.owner = Player.Second then 1 else -1
      let nr := row + dir
      if isValidMove b row col nr col then
        (if canPromote piece.owner nr then
           [⟨row, col, nr, col, false, PieceType.Empty, true⟩]
         else []) ++
        [⟨row, col, nr, col, false, PieceType.Empty, false⟩]
      else []
    | PieceType.Empty => []

/-- moverHand: the hand of the side to move, FirstHand unless the turn
is Second (as in Go's GetDropMoves and MakeMove). -/
def moverHand (b : Board) : List PieceType :=
  if b.currentTurn = Player.Second then b.secondHand else b.firstHand

/-- GetDropMovesWith: Go's GetDropMoves with the iteration order of the
uniquePieces map made explicit as the list of kinds to scan.  For each
kind, drops onto every empty cell in row-major order, skipping pawn
drops into a column holding the mover's pawn and pawn drops onto the
mover's farthest rank. -/
def GetDropMovesWith (b : Board) (kinds : List PieceType) : List Move :=
  kinds.flatMap fun pType =>
    (List.range 5).flatMap fun r =>
      (List.range 5).flatMap fun c =>
        if (getCell b.cells r c).owner = Player.None then
          if pType = PieceType.Pawn ∧ hasPawnInColumn b c b.currentTurn then []
          else if pType = PieceType.Pawn ∧
                  ((b.currentTurn = Player.First ∧ (r : Int) = 0) ∨
                   (b.currentTurn = Player.Second ∧ (r : Int) = 4)) then []
          else [⟨-1, -1, (r : Int), (c : Int), true, pType, false⟩]
        else []

/-- stdKinds: the set of distinct kinds in the mover's hand, one
concrete enumeration of the keys of Go's uniquePieces map. -/
def stdKinds (b : Board) : List PieceType := (moverHand b).dedup

/-- GetDropMoves: the canonical instantiation of GetDropMovesWith. -/
def GetDropMoves (b : Board) : List Move := GetDropMovesWith b (stdKinds b)

/-- GetAllLegalMovesWith: Go's GetAllLegalMoves (board moves scanned
row-major, then drops), with the drop-kind iteration order explicit. -/
def GetAllLegalMovesWith (b : Board) (kinds : List PieceType) : List Move :=
  ((List.range 5).flatMap fun r =>
    (List.range 5).flatMap fun c =>
      if (getCell b.cells r c).owner = b.currentTurn then
        GetPossibleMoves b r c
      else []) ++
  GetDropMovesWith b kinds

/-- GetAllLegalMoves: the canonical instantiation of
GetAllLegalMovesWith. -/
def GetAllLegalMoves (b : Board) : List Move :=
  GetAllLegalMovesWith b (stdKinds b)

/-- demote: the capture-demotion switch inside Go's MakeMove: promoted
kinds revert to their base kind, all others are unchanged. -/
def demote : PieceType → PieceType
  | PieceType.PromotedSilver => PieceType.Silver
  | PieceType.PromotedBishop => PieceType.Bishop
  | PieceType.PromotedRook => PieceType.Rook
  | PieceType.PromotedPawn => PieceType.Pawn
  | t => t

/-- promoteType: the promotion switch inside Go's MakeMove: the four
promotable kinds promote, all others are unchanged. -/
def promoteType : PieceType → PieceType
  | PieceType.Silver => PieceType.PromotedSilver
  | PieceType.Bishop => PieceType.PromotedBishop
  | PieceType.Rook => PieceType.PromotedRook
  | PieceType.Pawn => PieceType.PromotedPawn
  | t => t

/-- removeFirst: remove the first occurrence of a kind from a hand, a
no-op when absent (the removal loop in Go's MakeMove). -/
def removeFirst : List PieceType → PieceType → List PieceType
  | [], _ => []
  | p :: rest, k => if p = k then rest else p :: removeFirst rest k

/-- flipTurn: the unconditional turn flip at the end of Go's MakeMove
(a None turn becomes First, as in the Go if/else). -/
def flipTurn (p : Player) : Player :=
  if p = Player.First then Player.Second else Player.First

/-- MakeMove: Go's MakeMove.  Drops place the piece and remove one hand
occurrence; board moves add the demoted captured kind (if any) to the
mover's hand, optionally promote the moving piece, write the
destination, clear the source; the turn always flips. -/
def MakeMove (b : Board) (move : Move) : Board :=
  if move.isDrop then
    let b1 := { b with
      cells := setCell b.cells move.toRow move.toCol ⟨move.dropPiece, b.currentTurn⟩ }
    let b2 :=
      if b.currentTurn = Player.Second then
        { b1 with secondHand := removeFirst b1.secondHand move.dropPiece }
      else
        { b1 with firstHand := removeFirst b1.firstHand move.dropPiece }
    { b2 with currentTurn := flipTurn b.currentTurn }
  else
    let piece := getCell b.cells move.fromRow move.fromCol
    let captured := getCell b.cells move.toRow move.toCol
    let b1 :=
      if captured.owner ≠ Player.None then
        if b.currentTurn = Player.First then
          { b with firstHand := b.firstHand ++ [demote captured.type] }
        else
          { b with secondHand := b.secondHand ++ [demote captured.type] }
      else b
    let piece' := if move.promote then ⟨promoteType piece.type, piece.owner⟩ else piece
    let b2 := { b1 with
      cells := setCell (setCell b1.cells move.toRow move.toCol piece')
                 move.fromRow move.fromCol emptyPiece }
    { b2 with currentTurn := flipTurn b.currentTurn }

/-- IsGameOver: Go's IsGameOver; scans the grid for each player's King
and reports the game over with the surviving side when one is missing. -/
def IsGameOver (b : Board) : Bool × Player :=
  let firstKing := b.cells.any fun p =>
    decide (p.type = PieceType.King ∧ p.owner = Player.First)
  let secondKing := b.cells.any fun p =>
    decide (p.type = PieceType.King ∧ p.owner = Player.Second)
  if ¬ firstKing then (true, Player.Second)
  else if ¬ secondKing then (true, Player.First)
  else (false, Player.None)

/-- pieceValue: Go's pieceValues map; the Empty kind is absent from the
map and reads as 0. -/
def pieceValue : PieceType → Int
  | PieceType.Empty => 0
  | PieceType.King => 10000
  | PieceType.Gold => 600
  | PieceType.Silver => 500
  | PieceType.Bishop => 800
  | PieceType.Rook => 900
  | PieceType.Pawn => 100
  | PieceType.PromotedSilver => 600
  | PieceType.PromotedBishop => 1000
  | PieceType.PromotedRook => 1100
  | PieceType.PromotedPawn => 600

/-- Evaluate: Go's Evaluate; board material (First positive, Second
negative) plus 80 percent of hand material.  All hand values are
non-negative exact multiples of 10, so Go's truncating division and
Lean's Int division agree. -/
def Evaluate (b : Board) : Int :=
  let boardScore := b.cells.foldl (fun s p =>
    if p.owner = Player.First then s + pieceValue p.type
    else if p.owner = Player.Second then s - pieceValue p.type
    else s) 0
  let s1 := b.firstHand.foldl (fun s t => s + pieceValue t * 8 / 10) boardScore
  b.secondHand.foldl (fun s t => s - pieceValue t * 8 / 10) s1

/-- maxLoop: the maximizing candidate loop of Go's Minimax.  f is the
recursive child evaluation; the running state is (alpha, maxEval,
bestMove).  A candidate replaces the incumbent only when its score is
strictly greater; alpha becomes the running maximum; the loop stops as
soon as beta <= alpha.  In the pure embedding the Go copy-then-mutate
step (newBoard := *b plus fresh hand copies, then newBoard.MakeMove) is
the functional MakeMove. -/
def maxLoop (f : Board → Int → Int → Int) (b : Board) (beta : Int) :
    List Move → Int → Int → Option Move → Int × Option Move
  | [], _, maxEval, best => (maxEval, best)
  | m :: ms, alpha, maxEval, best =>
    let eval := f (MakeMove b m) alpha beta
    let maxEval' := if maxEval < eval then eval else maxEval
    let best' := if maxEval < eval then some m else best
    let alpha' := max alpha eval
    if beta ≤ alpha' then (maxEval', best')
    else maxLoop f b beta ms alpha' maxEval' best'

/-- minLoop: the minimizing candidate loop of Go's Minimax, symmetric
to maxLoop with beta as the running minimum. -/
def minLoop (f : Board → Int → Int → Int) (b : Board) (alpha : Int) :
    List Move → Int → Int → Option Move → Int × Option Move
  | [], _, minEval, best => (minEval, best)
  | m :: ms, beta, minEval, best =>
    let eval := f (MakeMove b m) alpha beta
    let minEval' := if eval < minEval then eval else minEval
    let best' := if eval < minEval then some m else best
    let beta' := min beta eval
    if beta' ≤ alpha then (minEval', best')
    else minLoop f b alpha ms beta' minEval' best'

/-- MinimaxWith: Go's Minimax with the drop-kind iteration order made
explicit.  Leaves (depth 0, game over, or no legal moves) return the
static evaluation and no move; otherwise the maximizing or minimizing
loop runs over the candidates with initial incumbent -999999 resp.
999999. -/
def MinimaxWith (kindsOf : Board → List PieceType) :
    Nat → Board → Int → Int → Bool → Int × Option Move
  | 0, b, _, _, _ => (Evaluate b, none)
  | d + 1, b, alpha, beta, maximizing =>
    if (IsGameOver b).1 then (Evaluate b, none)
    else
      let moves := GetAllLegalMovesWith b (kindsOf b)
      if moves.isEmpty then (Evaluate b, none)
      else if maximizing then
        maxLoop (fun nb a bt => (MinimaxWith kindsOf d nb a bt false).1)
          b beta moves alpha (-999999) none
      else
        minLoop (fun nb a bt => (MinimaxWith kindsOf d nb a bt true).1)
          b alpha moves beta 999999 none

/-- Minimax: the canonical instantiation of MinimaxWith. -/
def Minimax : Nat → Board → Int → Int → Bool → Int × Option Move :=
  MinimaxWith stdKinds

/-- GetAIMove: Go's GetAIMove; depth 3, full sentinel window, maximizing
exactly when First is to move. -/
def GetAIMove (b : Board) : Option Move :=
  (Minimax 3 b (-999999) 999999 (decide (b.currentTurn = Player.First))).2

/-- plainMinimaxWith models the specification's unpruned full minimax
traversal of the same move tree: the same move generator, executor and
evaluator and the same -999999/999999 starting incumbents, but no
alpha-beta window and no cutoff. -/
def plainMinimaxWith (kindsOf : Board → List PieceType) :
    Nat → Board → Bool → Int
  | 0, b, _ => Evaluate b
  | d + 1, b, maximizing =>
    if (IsGameOver b).1 then Evaluate b
    else
      let moves := GetAllLegalMovesWith b (kindsOf b)
      if moves.isEmpty then Evaluate b
      else if maximizing then
        moves.foldl
          (fun acc m => max acc (plainMinimaxWith kindsOf d (MakeMove b m) false))
          (-999999)
      else
        moves.foldl
          (fun acc m => min acc (plainMinimaxWith kindsOf d (MakeMove b m) true))
          999999

/-- plainMinimax: the canonical instantiation of plainMinimaxWith. -/
def plainMinimax : Nat → Board → Bool → Int :=
  plainMinimaxWith stdKinds

/-- baseKindSpec models the specification's base-kind table for captures:
PromotedSilver is recorded as Silver, PromotedBishop as Bishop,
PromotedRook as Rook, PromotedPawn as Pawn, and unpromoted kinds are
recorded unchanged. -/
def baseKindSpec (t : PieceType) : PieceType :=
  match t with
  | PieceType.PromotedSilver => PieceType.Silver
  | PieceType.PromotedBishop => PieceType.Bishop
  | PieceType.PromotedRook => PieceType.Rook
  | PieceType.PromotedPawn => PieceType.Pawn
  | PieceType.King => PieceType.King
  | PieceType.Gold => PieceType.Gold
  | PieceType.Silver => PieceType.Silver
  | PieceType.Bishop => PieceType.Bishop
  | PieceType.Rook => PieceType.Rook
  | PieceType.Pawn => PieceType.Pawn
  | PieceType.Empty => PieceType.Empty

/-- rawKindCount: occurrences of a kind, counted literally, over the
grid and both hands. -/
def rawKindCount (b : Board) (k : PieceType) : Nat :=
  (b.cells.countP fun p => decide (p.type = k)) +
  (b.firstHand.countP fun t => decide (t = k)) +
  (b.secondHand.countP fun t => decide (t = k))

/-- kindCount: occurrences of a kind counted by base (demoted) form,
over the grid and both hands. -/
def kindCount (b : Board) (k : PieceType) : Nat :=
  (b.cells.countP fun p => decide (demote p.type = k)) +
  (b.firstHand.countP fun t => decide (demote t = k)) +
  (b.secondHand.countP fun t => decide (demote t = k))

/-- kingCountOf: number of Kings of one owner on the grid. -/
def kingCountOf (b : Board) (pl : Player) : Nat :=
  b.cells.countP fun p => decide (p.type = PieceType.King ∧ p.owner = pl)

/-- Reachable: states reachable from the initial board by moves drawn
from GetAllLegalMoves. -/
inductive Reachable : Board → Prop where
  | init : Reachable NewBoard
  | step {b : Board} {m : Move} : Reachable b → m ∈ GetAllLegalMoves b →
      Reachable (MakeMove b m)

/-- treeBoundedWith: every node of the depth-d search tree (under the
given drop-kind order) evaluates strictly inside the sentinel window
(-999999, 999999).  True of every position with real-game material; it
can only fail for boards whose hands hold hundreds of pieces. -/
def treeBoundedWith (kindsOf : Board → List PieceType) : Nat → Board → Bool
  | 0, b => decide (-999999 < Evaluate b ∧ Evaluate b < 999999)
  | d + 1, b =>
    decide (-999999 < Evaluate b ∧ Evaluate b < 999999) &&
    (GetAllLegalMovesWith b (kindsOf b)).all fun m =>
      treeBoundedWith kindsOf d (MakeMove b m)

/-- treeBounded: the canonical instantiation of treeBoundedWith. -/
def treeBounded : Nat → Board → Bool := treeBoundedWith stdKinds

/-- MoveOK: the sanity facts the generator guarantees about each of its
moves, used to prove material conservation.  Drops come from the
mover's hand onto an in-bounds empty cell; board moves start from an
in-bounds cell of the mover, end on a distinct in-bounds cell not
occupied by the mover. -/
def MoveOK (b : Board) (m : Move) : Prop :=
  if m.isDrop then
    m.dropPiece ∈ moverHand b ∧
    0 ≤ m.toRow ∧ m.toRow < 5 ∧ 0 ≤ m.toCol ∧ m.toCol < 5 ∧
    (getCell b.cells m.toRow m.toCol).owner = Player.None
  else
    0 ≤ m.fromRow ∧ m.fromRow < 5 ∧ 0 ≤ m.fromCol ∧ m.fromCol < 5 ∧
    0 ≤ m.toRow ∧ m.toRow < 5 ∧ 0 ≤ m.toCol ∧ m.toCol < 5 ∧
    (m.fromRow ≠ m.toRow ∨ m.fromCol ≠ m.toCol) ∧
    (getCell b.cells m.fromRow m.fromCol).owner = b.currentTurn ∧
    (getCell b.cells m.fromRow m.fromCol).owner ≠ Player.None ∧
    (getCell b.cells m.toRow m.toCol).owner ≠ b.currentTurn

/-- WFBoard: structural invariants of reachable states: the grid has 25
cells, a cell is ownerless exactly when it is typeless, the turn is a
real side, and hands never hold the Empty sentinel. -/
def WFBoard (b : Board) : Prop :=
  b.cells.length = 25 ∧
  (∀ p ∈ b.cells, p.owner = Player.None ↔ p.type = PieceType.Empty) ∧
  b.currentTurn ≠ Player.None ∧
  PieceType.Empty ∉ b.firstHand ∧
  PieceType.Empty ∉ b.secondHand

/-- GoSlice: a Go []PieceType slice value: the identity of its backing
array in the heap and its length; the capacity is the backing array's
length. -/
structure GoSlice where
  arrId : Nat
  len : Nat
  deriving DecidableEq, Repr

/-- GoHeap: the allocated backing arrays. -/
structure GoHeap where
  arrays : List (List PieceType)
  deriving DecidableEq, Repr

/-- readArr: the backing array with the given identity. -/
def readArr (h : GoHeap) (i : Nat) : List PieceType := h.arrays.getD i []

/-- readSlice: the elements a slice denotes. -/
def readSlice (h : GoHeap) (s : GoSlice) : List PieceType :=
  (readArr h s.arrId).take s.len

/-- writeArr: replace one backing array. -/
def writeArr (h : GoHeap) (i : Nat) (a : List PieceType) : GoHeap :=
  ⟨h.arrays.set i a⟩

/-- allocArr: allocate a fresh backing array, returning its identity. -/
def allocArr (h : GoHeap) (a : List PieceType) : GoHeap × Nat :=
  (⟨h.arrays ++ [a]⟩, h.arrays.length)

/-- goAppend: Go's append(s, x): write into the existing backing array
when capacity allows, else allocate a fresh one holding the old
contents plus x. -/
def goAppend (h : GoHeap) (s : GoSlice) (x : PieceType) : GoHeap × GoSlice :=
  let backing := readArr h s.arrId
  if s.len < backing.length then
    (writeArr h s.arrId (backing.set s.len x), ⟨s.arrId, s.len + 1⟩)
  else
    let p := allocArr h (readSlice h s ++ [x])
    (p.1, ⟨p.2, s.len + 1⟩)

/-- goRemoveFirst: the removal loop of Go's MakeMove,
s = append(s[:i], s[i+1:]...): shift the tail left one place inside the
same backing array (the cell past the new end keeps its stale value,
as in Go) and shorten the slice; a no-op when the kind is absent. -/
def goRemoveFirst (h : GoHeap) (s : GoSlice) (k : PieceType) : GoHeap × GoSlice :=
  let view := readSlice h s
  match view.findIdx? (fun t => decide (t = k)) with
  | none => (h, s)
  | some i =>
    let backing := readArr h s.arrId
    let newView := view.take i ++ view.drop (i + 1)
    (writeArr h s.arrId (newView ++ backing.drop (s.len - 1)), ⟨s.arrId, s.len - 1⟩)

/-- HBoard: Go's Board struct with its two slice headers explicit. -/
structure HBoard where
  cells : List Piece
  firstHand : GoSlice
  secondHand : GoSlice
  currentTurn : Player
  deriving DecidableEq, Repr

/-- hClone: the copy made before each recursive Minimax step:
newBoard := *b (a value copy of the grid, the slice headers and the
turn) followed by newBoard.FirstHand = append([]PieceType{},
b.FirstHand...) and likewise for SecondHand: both hands get freshly
allocated backing arrays holding the same contents. -/
def hClone (h : GoHeap) (b : HBoard) : GoHeap × HBoard :=
  let p1 := allocArr h (readSlice h b.firstHand)
  let p2 := allocArr p1.1 (readSlice h b.secondHand)
  (p2.1, { b with
    firstHand := ⟨p1.2, (readSlice h b.firstHand).length⟩,
    secondHand := ⟨p2.2, (readSlice h b.secondHand).length⟩ })

/-- hMakeMove: Go's MakeMove against the slice-heap model; identical to
MakeMove except that hand updates go through goAppend/goRemoveFirst. -/
def hMakeMove (h : GoHeap) (b : HBoard) (move : Move) : GoHeap × HBoard :=
  if move.isDrop then
    let cells' := setCell b.cells move.toRow move.toCol ⟨move.dropPiece, b.currentTurn⟩
    if b.currentTurn = Player.Second then
      let p := goRemoveFirst h b.secondHand move.dropPiece
      (p.1, { b with
        cells := cells'
        secondHand := p.2
        currentTurn := flipTurn b.currentTurn })
    else
      let p := goRemoveFirst h b.firstHand move.dropPiece
      (p.1, { b with
        cells := cells'
        firstHand := p.2
        currentTurn := flipTurn b.currentTurn })
  else
    let piece := getCell b.cells move.fromRow move.fromCol
    let captured := getCell b.cells move.toRow move.toCol
    let q :=
      if captured.owner ≠ Player.None then
        if b.currentTurn = Player.First then
          let p := goAppend h b.firstHand (demote captured.type)
          (p.1, { b with firstHand := p.2 })
        else
          let p := goAppend h b.secondHand (demote captured.type)
          (p.1, { b with secondHand := p.2 })
      else (h, b)
    let piece' := if move.promote then ⟨promoteType piece.type, piece.owner⟩ else piece
    (q.1, { q.2 with
      cells := setCell (setCell q.2.cells move.toRow move.toCol piece')
                 move.fromRow move.fromCol emptyPiece,
      currentTurn := flipTurn b.currentTurn })

/-- observe: everything of a board a reader can see: the grid, the two
hand contents as read from the heap, and the side to move. -/
def observe (h : GoHeap) (b : HBoard) :
    List Piece × List PieceType × List PieceType × Player :=
  (b.cells, readSlice h b.firstHand, readSlice h b.secondHand, b.currentTurn)

/-- emptyBoard: a board with no pieces at all (both Kings captured); it
cannot arise from legal play but is a legitimate Board value. -/
def emptyBoard : Board :=
  { cells := List.replicate 25 emptyPiece, firstHand := [], secondHand := [],
    currentTurn := Player.First }

/-- sOverflow: both Kings on the board, but First's hand holds 126
Kings, so every evaluation in the tree exceeds the 999999 sentinel. -/
def sOverflow : Board :=
  { cells := setCell (setCell (setCell (List.replicate 25 emptyPiece)
      2 2 ⟨PieceType.King, Player.First⟩)
      2 3 ⟨PieceType.Pawn, Player.Second⟩)
      0 4 ⟨PieceType.King, Player.Second⟩,
    firstHand := List.replicate 126 PieceType.King,
    secondHand := [],
    currentTurn := Player.First }

/-- sTie: a quiet position where a Gold drop and a PromotedPawn drop
from First's hand improve the score by the same amount, so the chosen
move depends on which hand kind the drop generator iterates first. -/
def sTie : Board :=
  { cells := setCell (setCell (List.replicate 25 emptyPiece)
      4 0 ⟨PieceType.King, Player.First⟩)
      0 4 ⟨PieceType.King, Player.Second⟩,
    firstHand := [PieceType.Gold, PieceType.PromotedPawn],
    secondHand := [],
    currentTurn := Player.First }

/-- sNoBoardMoves: First's king and pawns are mutually blocked so First
has only drops, and First's 125 hand Kings push every evaluation past
the sentinel window: the first drop examined triggers an immediate
cutoff, so even the returned score depends on the drop-kind order. -/
def sNoBoardMoves : Board :=
  { cells := setCell (setCell (setCell (setCell (setCell
      (List.replicate 25 emptyPiece)
      0 0 ⟨PieceType.King, Player.First⟩)
      0 1 ⟨PieceType.Pawn, Player.First⟩)
      1 0 ⟨PieceType.Pawn, Player.First⟩)
      1 1 ⟨PieceType.Pawn, Player.First⟩)
      4 4 ⟨PieceType.King, Player.Second⟩,
    firstHand := PieceType.Pawn :: List.replicate 125 PieceType.King,
    secondHand := [],
    currentTurn := Player.First }

/-- pm1: First's pawn steps forward (reaching-a-promotion line). -/
def pm1 : Move := ⟨3, 0, 2, 0, false, PieceType.Empty, false⟩

/-- pm2: Second's pawn steps forward. -/
def pm2 : Move := ⟨1, 4, 2, 4, false, PieceType.Empty, false⟩

/-- pm3: First's pawn steps forward again. -/
def pm3 : Move := ⟨2, 0, 1, 0, false, PieceType.Empty, false⟩

/-- pm4: Second's pawn steps forward again. -/
def pm4 : Move := ⟨2, 4, 3, 4, false, PieceType.Empty, false⟩

/-- pm5: First's pawn captures the Rook on the last rank and promotes. -/
def pm5 : Move := ⟨1, 0, 0, 0, false, PieceType.Empty, true⟩

/-- ps1 through ps5: the states along the promotion line. -/
def ps1 : Board := MakeMove NewBoard pm1

/-- ps2: after pm2. -/
def ps2 : Board := MakeMove ps1 pm2

/-- ps3: after pm3. -/
def ps3 : Board := MakeMove ps2 pm3

/-- ps4: after pm4. -/
def ps4 : Board := MakeMove ps3 pm4

/-- ps5: after the promoting capture pm5. -/
def ps5 : Board := MakeMove ps4 pm5

/-- cm3: from ps2, First's rook instead captures Second's pawn. -/
def cm3 : Move := ⟨4, 4, 2, 4, false, PieceType.Empty, false⟩

/-- cs3: after cm3; First's hand now holds a Pawn. -/
def cs3 : Board := MakeMove ps2 cm3

/-- cm4: Second's gold steps forward. -/
def cm4 : Move := ⟨0, 3, 1, 3, false, PieceType.Empty, false⟩

/-- cs4: after cm4; First to move with a Pawn in hand, game not over. -/
def cs4 : Board := MakeMove cs3 cm4

/-- ordA: drop-kind iteration order Gold before PromotedPawn. -/
def ordA : Board → List PieceType := fun _ => [PieceType.Gold, PieceType.PromotedPawn]

/-- ordB: drop-kind iteration order PromotedPawn before Gold. -/
def ordB : Board → List PieceType := fun _ => [PieceType.PromotedPawn, PieceType.Gold]

/-- ordC: drop-kind iteration order King before Pawn. -/
def ordC : Board → List PieceType := fun _ => [PieceType.King, PieceType.Pawn]

/-- ordD: drop-kind iteration order Pawn before King. -/
def ordD : Board → List PieceType := fun _ => [PieceType.Pawn, PieceType.King]

/-- promotableKind: the four kinds with promoted forms. -/
def promotableKind (t : PieceType) : Prop :=
  t = PieceType.Silver ∨ t = PieceType.Bishop ∨ t = PieceType.Rook ∨ t = PieceType.Pawn

/-- foldScores: the running maximum of child scores, as folded by the
maximizing branch of plainMinimaxWith. -/
def foldScores (w : Move → Int) (e : Int) (l : List Move) : Int :=
  l.foldl (fun a m => max a (w m)) e

/-- foldScoresMin: the running minimum of child scores, as folded by the
minimizing branch of plainMinimaxWith. -/
def foldScoresMin (w : Move → Int) (e : Int) (l : List Move) : Int :=
  l.foldl (fun a m => min a (w m)) e

section Theorems

/-- The strict-improvement update of the loops is the binary maximum. -/
theorem if_lt_max (x y : Int) : (if x < y then y else x) = max x y := by
  rcases lt_or_ge x y with h | h
  · rw [if_pos h, max_eq_right h.le]
  · rw [if_neg (not_lt.mpr h), max_eq_left h]

/-- The strict-improvement update of the minimizing loop is the binary
minimum. -/
theorem if_lt_min (x y : Int) : (if y < x then y else x) = min x y := by
  rcases lt_or_ge y x with h | h
  · rw [if_pos h, min_eq_right h.le]
  · rw [if_neg (not_lt.mpr h), min_eq_left h]

/-- Pulling one maximand out of the fold. -/
theorem foldScores_init (w : Move → Int) (x y : Int) (l : List Move) :
    foldScores w (max x y) l = max x (foldScores w y l) := by
  induction l generalizing y with
  | nil => rfl
  | cons m ms ih =>
    show foldScores w (max (max x y) (w m)) ms = max x (foldScores w (max y (w m)) ms)
    rw [max_assoc, ih]

/-- The fold only increases its initial value. -/
theorem le_foldScores (w : Move → Int) (y : Int) (l : List Move) :
    y ≤ foldScores w y l := by
  induction l generalizing y with
  | nil => exact le_refl y
  | cons m ms ih =>
    exact le_trans (le_max_left y (w m)) (ih (max y (w m)))

/-- A strict upper bound on the initial value and every score bounds the
fold. -/
theorem foldScores_lt (w : Move → Int) (K : Int) (l : List Move) :
    ∀ y, y < K → (∀ m ∈ l, w m < K) → foldScores w y l < K := by
  induction l with
  | nil => intro y hy _; exact hy
  | cons m ms ih =>
    intro y hy hall
    exact ih (max y (w m)) (max_lt hy (hall m (List.mem_cons_self m ms)))
      fun m' hm' => hall m' (List.mem_cons_of_mem m hm')

/-- Pulling one minimand out of the fold. -/
theorem foldScoresMin_init (w : Move → Int) (x y : Int) (l : List Move) :
    foldScoresMin w (min x y) l = min x (foldScoresMin w y l) := by
  induction l generalizing y with
  | nil => rfl
  | cons m ms ih =>
    show foldScoresMin w (min (min x y) (w m)) ms =
      min x (foldScoresMin w (min y (w m)) ms)
    rw [min_assoc, ih]

/-- The fold only decreases its initial value. -/
theorem foldScoresMin_le (w : Move → Int) (y : Int) (l : List Move) :
    foldScoresMin w y l ≤ y := by
  induction l generalizing y with
  | nil => exact le_refl y
  | cons m ms ih =>
    exact le_trans (ih (min y (w m))) (min_le_left y (w m))

/-- A strict lower bound on the initial value and every score bounds the
fold. -/
theorem lt_foldScoresMin (w : Move → Int) (K : Int) (l : List Move) :
    ∀ y, K < y → (∀ m ∈ l, K < w m) → K < foldScoresMin w y l := by
  induction l with
  | nil => intro y hy _; exact hy
  | cons m ms ih =>
    intro y hy hall
    exact ih (min y (w m)) (lt_min hy (hall m (List.mem_cons_self m ms)))
      fun m' hm' => hall m' (List.mem_cons_of_mem m hm')

/-- demote agrees with the specification's base-kind table everywhere. -/
theorem demote_eq_baseKindSpec (t : PieceType) : demote t = baseKindSpec t := by
  cases t <;> rfl

/-- The King-scan flag of IsGameOver is the positivity of the King count. -/
theorem any_king_iff (b : Board) (pl : Player) :
    (b.cells.any fun p =>
      decide (p.type = PieceType.King ∧ p.owner = pl)) = true ↔
      0 < kingCountOf b pl := by
  rw [List.any_eq_true, kingCountOf, List.countP_pos_iff]

/-- A positive King count contradicts the all-cells-negative scan. -/
theorem king_scan_pos (b : Board) (pl : Player)
    (h : 0 < kingCountOf b pl) :
    ¬ ∀ x ∈ b.cells, x.type = PieceType.King → ¬ x.owner = pl := by
  obtain ⟨p, hp, hpd⟩ := List.countP_pos_iff.mp h
  have hc := of_decide_eq_true hpd
  exact fun hall => (hall p hp hc.1) hc.2

/-- A zero King count yields the all-cells-negative scan. -/
theorem king_scan_zero (b : Board) (pl : Player)
    (h : kingCountOf b pl = 0) :
    ∀ x ∈ b.cells, x.type = PieceType.King → ¬ x.owner = pl := by
  intro x hx ht ho
  have := List.countP_eq_zero.mp h x hx
  exact this (decide_eq_true ⟨ht, ho⟩)

/-- IsGameOver rephrased through the two King counts. -/
theorem isGameOver_eq (b : Board) :
    IsGameOver b =
      if kingCountOf b Player.First = 0 then (true, Player.Second)
      else if kingCountOf b Player.Second = 0 then (true, Player.First)
      else (false, Player.None) := by
  have e1 := propext (any_king_iff b Player.First)
  have e2 := propext (any_king_iff b Player.Second)
  simp only [IsGameOver, e1, e2]
  split_ifs <;> first | rfl | omega

/-- C3 (amended): for boards holding at least one King and at most one
King per player, IsGameOver reports the game over exactly when a single
King remains, naming its owner as the winner; with Kings of both
players present it reports (false, None); no other condition (in
particular the absence of legal moves) makes it report the game over. -/
theorem isGameOver_exactly_one_king (b : Board)
    (h1 : kingCountOf b Player.First ≤ 1)
    (h2 : kingCountOf b Player.Second ≤ 1)
    (h3 : 1 ≤ kingCountOf b Player.First + kingCountOf b Player.Second) :
    ((IsGameOver b).1 = true ↔
       kingCountOf b Player.First + kingCountOf b Player.Second = 1) ∧
    ((IsGameOver b).1 = true → kingCountOf b (IsGameOver b).2 = 1) ∧
    ((IsGameOver b).1 = false → (IsGameOver b).2 = Player.None) := by
  have he := isGameOver_eq b
  rcases Nat.eq_zero_or_pos (kingCountOf b Player.First) with h4 | h4
  · rw [if_pos h4] at he
    rw [he]
    refine ⟨⟨fun _ => by omega, fun _ => rfl⟩, ?_, fun h => by simp at h⟩
    intro _
    show kingCountOf b Player.Second = 1
    omega
  · rw [if_neg (by omega)] at he
    rcases Nat.eq_zero_or_pos (kingCountOf b Player.Second) with h5 | h5
    · rw [if_pos h5] at he
      rw [he]
      refine ⟨⟨fun _ => by omega, fun _ => rfl⟩, ?_, fun h => by simp at h⟩
      intro _
      show kingCountOf b Player.First = 1
      omega
    · rw [if_neg (by omega)] at he
      rw [he]
      exact ⟨⟨fun h => by simp at h, fun h => by omega⟩,
        fun h => by simp at h, fun _ => rfl⟩

/-- C3 witness: the characterization applied to the initial board. -/
theorem isGameOver_exactly_one_king_witness :
    kingCountOf NewBoard Player.First ≤ 1 ∧
    ((IsGameOver NewBoard).1 = true ↔
       kingCountOf NewBoard Player.First + kingCountOf NewBoard Player.Second = 1) := by
  refine ⟨by decide, ?_⟩
  exact (isGameOver_exactly_one_king NewBoard (by decide) (by decide) (by decide)).1

/-- C3 counterexample: on a board with no King at all (a legitimate
Board value), IsGameOver reports the game over with winner Second, even
though no single surviving King exists, refuting the claim as stated
over every board state. -/
theorem isGameOver_zero_kings_counterexample :
    IsGameOver emptyBoard = (true, Player.Second) ∧
    kingCountOf emptyBoard Player.First + kingCountOf emptyBoard Player.Second = 0 := by
  decide

/-- C6: a board move onto a cell occupied by an opposing piece adds
exactly one kind to the mover's hand, namely the captured piece's base
kind per the specification's table (promoted kinds demoted, unpromoted
kinds unchanged); the opponent's hand is untouched. -/
theorem makeMove_capture_adds_base (b : Board) (m : Move)
    (hd : m.isDrop = false)
    (hocc : (getCell b.cells m.toRow m.toCol).owner ≠ Player.None)
    (hopp : (getCell b.cells m.toRow m.toCol).owner ≠ b.currentTurn) :
    ((MakeMove b m).firstHand, (MakeMove b m).secondHand) =
      if b.currentTurn = Player.First then
        (b.firstHand ++ [baseKindSpec (getCell b.cells m.toRow m.toCol).type],
         b.secondHand)
      else
        (b.firstHand,
         b.secondHand ++ [baseKindSpec (getCell b.cells m.toRow m.toCol).type]) := by
  by_cases ht : b.currentTurn = Player.First
  · simp [MakeMove, hd, hocc, ht, demote_eq_baseKindSpec]
  · simp [MakeMove, hd, hocc, ht, demote_eq_baseKindSpec]

/-- C6 witness: First's rook captures Second's pawn from ps2. -/
theorem makeMove_capture_adds_base_witness :
    (getCell ps2.cells cm3.toRow cm3.toCol).owner ≠ Player.None ∧
    ((MakeMove ps2 cm3).firstHand, (MakeMove ps2 cm3).secondHand) =
      (if ps2.currentTurn = Player.First then
        (ps2.firstHand ++ [baseKindSpec (getCell ps2.cells cm3.toRow cm3.toCol).type],
         ps2.secondHand)
      else
        (ps2.firstHand,
         ps2.secondHand ++ [baseKindSpec (getCell ps2.cells cm3.toRow cm3.toCol).type])) :=
  ⟨by decide, makeMove_capture_adds_base ps2 cm3 (by decide) (by decide) (by decide)⟩

/-- Writing one backing array leaves every other array unchanged. -/
theorem readArr_writeArr_ne (h : GoHeap) (i j : Nat) (a : List PieceType)
    (hne : i ≠ j) : readArr (writeArr h j a) i = readArr h i := by
  simp only [readArr, writeArr]
  rcases Nat.lt_or_ge i h.arrays.length with hi | hi
  · rw [List.getD_eq_getElem _ _ (by simpa using hi),
      List.getD_eq_getElem _ _ hi]
    exact List.getElem_set_ne (Ne.symm hne) _
  · rw [List.getD_eq_default _ _ (by simpa using hi),
      List.getD_eq_default _ _ hi]

/-- Allocating a fresh backing array leaves existing arrays unchanged. -/
theorem readArr_allocArr (h : GoHeap) (a : List PieceType) (i : Nat)
    (hi : i < h.arrays.length) : readArr (allocArr h a).1 i = readArr h i := by
  simp only [readArr, allocArr]
  exact List.getD_append _ _ _ _ hi

/-- goAppend only touches its own backing array (or fresh storage). -/
theorem goAppend_frame (h : GoHeap) (s : GoSlice) (x : PieceType) (i : Nat)
    (hi : i < h.arrays.length) (hne : i ≠ s.arrId) :
    readArr (goAppend h s x).1 i = readArr h i := by
  unfold goAppend
  by_cases hc : s.len < (readArr h s.arrId).length
  · simp only [hc, if_pos]
    exact readArr_writeArr_ne h i s.arrId _ hne
  · simp only [hc, if_neg, not_false_iff]
    exact readArr_allocArr h _ i hi

/-- goRemoveFirst only touches its own backing array. -/
theorem goRemoveFirst_frame (h : GoHeap) (s : GoSlice) (k : PieceType) (i : Nat)
    (hne : i ≠ s.arrId) :
    readArr (goRemoveFirst h s k).1 i = readArr h i := by
  cases hfi : (readSlice h s).findIdx? (fun t => decide (t = k)) with
  | none => simp only [goRemoveFirst, hfi]
  | some j =>
    simp only [goRemoveFirst, hfi]
    exact readArr_writeArr_ne h i s.arrId _ hne

/-- hMakeMove only touches the two backing arrays of its own board (or
fresh storage past the old heap). -/
theorem hMakeMove_frame (h : GoHeap) (b : HBoard) (m : Move) (i : Nat)
    (hi : i < h.arrays.length)
    (h1 : i ≠ b.firstHand.arrId) (h2 : i ≠ b.secondHand.arrId) :
    readArr (hMakeMove h b m).1 i = readArr h i := by
  simp only [hMakeMove]
  by_cases hd : m.isDrop = true
  · rw [if_pos hd]
    by_cases ht : b.currentTurn = Player.Second
    · rw [if_pos ht]
      exact goRemoveFirst_frame h b.secondHand m.dropPiece i h2
    · rw [if_neg ht]
      exact goRemoveFirst_frame h b.firstHand m.dropPiece i h1
  · rw [if_neg hd]
    by_cases hc : (getCell b.cells m.toRow m.toCol).owner ≠ Player.None
    · rw [if_pos hc]
      by_cases ht : b.currentTurn = Player.First
      · rw [if_pos ht]
        exact goAppend_frame h b.firstHand _ i hi h1
      · rw [if_neg ht]
        exact goAppend_frame h b.secondHand _ i hi h2
    · rw [if_neg hc]

/-- C9: copying the state the way Minimax does (value copy of the Board
struct plus freshly allocated copies of both hand slices) and applying
any move to the copy leaves the original state's grid, both of its
hands, and its side to move unchanged, in the slice-heap model of Go's
memory. -/
theorem clone_then_move_frame (h : GoHeap) (hb : HBoard) (m : Move)
    (hf : hb.firstHand.arrId < h.arrays.length)
    (hs : hb.secondHand.arrId < h.arrays.length) :
    observe (hMakeMove (hClone h hb).1 (hClone h hb).2 m).1 hb = observe h hb := by
  have hid1 : (hClone h hb).2.firstHand.arrId = h.arrays.length := rfl
  have hid2 : (hClone h hb).2.secondHand.arrId = h.arrays.length + 1 := by
    simp [hClone, allocArr]
  have hlen : (hClone h hb).1.arrays.length = h.arrays.length + 2 := by
    simp [hClone, allocArr]
  have key : ∀ j, j < h.arrays.length →
      readArr (hMakeMove (hClone h hb).1 (hClone h hb).2 m).1 j = readArr h j := by
    intro j hj
    rw [hMakeMove_frame (hClone h hb).1 (hClone h hb).2 m j (by omega)
      (by rw [hid1]; omega) (by rw [hid2]; omega)]
    show readArr (allocArr (allocArr h _).1 _).1 j = readArr h j
    rw [readArr_allocArr _ _ j (by simp [allocArr]; omega),
      readArr_allocArr _ _ j hj]
  unfold observe readSlice
  rw [key _ hf, key _ hs]

/-- C9 witness: a concrete two-array heap, a board pointing at both
arrays, and a capturing board move applied to the clone. -/
theorem clone_then_move_frame_witness :
    ((⟨0, 1⟩ : GoSlice).arrId <
        (⟨[[PieceType.Pawn], [PieceType.Gold]]⟩ : GoHeap).arrays.length) ∧
    observe (hMakeMove
        (hClone ⟨[[PieceType.Pawn], [PieceType.Gold]]⟩
          ⟨ps2.cells, ⟨0, 1⟩, ⟨1, 1⟩, Player.First⟩).1
        (hClone ⟨[[PieceType.Pawn], [PieceType.Gold]]⟩
          ⟨ps2.cells, ⟨0, 1⟩, ⟨1, 1⟩, Player.First⟩).2 cm3).1
      ⟨ps2.cells, ⟨0, 1⟩, ⟨1, 1⟩, Player.First⟩ =
    observe ⟨[[PieceType.Pawn], [PieceType.Gold]]⟩
      ⟨ps2.cells, ⟨0, 1⟩, ⟨1, 1⟩, Player.First⟩ :=
  ⟨by decide,
    clone_then_move_frame ⟨[[PieceType.Pawn], [PieceType.Gold]]⟩
      ⟨ps2.cells, ⟨0, 1⟩, ⟨1, 1⟩, Player.First⟩ cm3 (by decide) (by decide)⟩

/-- Membership in the drop generator, characterized. -/
theorem mem_getDropMovesWith (b : Board) (kinds : List PieceType) (m : Move) :
    m ∈ GetDropMovesWith b kinds ↔
      ∃ k ∈ kinds, ∃ r : Nat, r < 5 ∧ ∃ c : Nat, c < 5 ∧
        (getCell b.cells (r : Int) (c : Int)).owner = Player.None ∧
        ¬(k = PieceType.Pawn ∧ hasPawnInColumn b (c : Int) b.currentTurn = true) ∧
        ¬(k = PieceType.Pawn ∧
          ((b.currentTurn = Player.First ∧ (r : Int) = 0) ∨
           (b.currentTurn = Player.Second ∧ (r : Int) = 4))) ∧
        m = ⟨-1, -1, (r : Int), (c : Int), true, k, false⟩ := by
  simp only [GetDropMovesWith, List.mem_flatMap, List.mem_range]
  constructor
  · rintro ⟨k, hk, r, hr, c, hc, hm⟩
    refine ⟨k, hk, r, hr, c, hc, ?_⟩
    split_ifs at hm with h1 h2 h3
    · exact absurd hm (List.not_mem_nil m)
    · exact absurd hm (List.not_mem_nil m)
    · exact ⟨h1, h2, h3, List.mem_singleton.mp hm⟩
    · exact absurd hm (List.not_mem_nil m)
  · rintro ⟨k, hk, r, hr, c, hc, howner, hnp1, hnp2, rfl⟩
    refine ⟨k, hk, r, hr, c, hc, ?_⟩
    rw [if_pos howner, if_neg hnp1, if_neg hnp2]
    exact List.mem_singleton.mpr rfl

/-- Every element of one cell's drop list records that cell and kind. -/
theorem mem_dropCell (b : Board) (k : PieceType) (r c : Nat) (m : Move)
    (hm : m ∈ (if (getCell b.cells (r : Int) (c : Int)).owner = Player.None then
        (if k = PieceType.Pawn ∧ hasPawnInColumn b (c : Int) b.currentTurn = true then
           ([] : List Move)
         else if k = PieceType.Pawn ∧
             ((b.currentTurn = Player.First ∧ (r : Int) = 0) ∨
              (b.currentTurn = Player.Second ∧ (r : Int) = 4)) then []
         else [⟨-1, -1, (r : Int), (c : Int), true, k, false⟩])
      else [])) :
    m.toRow = (r : Int) ∧ m.toCol = (c : Int) ∧ m.dropPiece = k := by
  split_ifs at hm with h1 h2 h3
  · exact absurd hm (List.not_mem_nil m)
  · exact absurd hm (List.not_mem_nil m)
  · rw [List.mem_singleton.mp hm]
    exact ⟨rfl, rfl, rfl⟩
  · exact absurd hm (List.not_mem_nil m)

/-- The drop generator produces no duplicate moves when the kind list
has none. -/
theorem getDropMovesWith_nodup (b : Board) (kinds : List PieceType)
    (hk : kinds.Nodup) : (GetDropMovesWith b kinds).Nodup := by
  unfold GetDropMovesWith
  rw [List.nodup_flatMap]
  constructor
  · intro k _
    rw [List.nodup_flatMap]
    constructor
    · intro r _
      rw [List.nodup_flatMap]
      constructor
      · intro c _
        split_ifs <;> simp
      · refine List.Pairwise.imp ?_ (List.pairwise_lt_range 5)
        intro c1 c2 hlt m hm1 hm2
        have e1 := (mem_dropCell b k r c1 m hm1).2.1
        have e2 := (mem_dropCell b k r c2 m hm2).2.1
        rw [e1] at e2
        have : c1 = c2 := by exact_mod_cast e2
        omega
    · refine List.Pairwise.imp ?_ (List.pairwise_lt_range 5)
      intro r1 r2 hlt m hm1 hm2
      rw [List.mem_flatMap] at hm1 hm2
      obtain ⟨c1, _, hm1⟩ := hm1
      obtain ⟨c2, _, hm2⟩ := hm2
      rw [List.mem_range] at *
      have e1 := (mem_dropCell b k r1 c1 m hm1).1
      have e2 := (mem_dropCell b k r2 c2 m hm2).1
      rw [e1] at e2
      have : r1 = r2 := by exact_mod_cast e2
      omega
  · refine List.Pairwise.imp ?_ hk
    intro k1 k2 hne m hm1 hm2
    rw [List.mem_flatMap] at hm1 hm2
    obtain ⟨r1, _, hm1⟩ := hm1
    obtain ⟨r2, _, hm2⟩ := hm2
    rw [List.mem_flatMap] at hm1 hm2
    obtain ⟨c1, _, hm1⟩ := hm1
    obtain ⟨c2, _, hm2⟩ := hm2
    have e1 := (mem_dropCell b k1 r1 c1 m hm1).2.2
    have e2 := (mem_dropCell b k2 r2 c2 m hm2).2.2
    rw [e1] at e2
    exact hne e2

/-- C5: the drop list is exactly one drop per (distinct hand kind, empty
cell) pair, minus Pawn drops into a column already holding the mover's
unpromoted Pawn and Pawn drops onto the mover's farthest rank; no other
drop is excluded and no drop targets an occupied cell. -/
theorem getDropMoves_exact (b : Board) (m : Move) :
    (m ∈ GetDropMoves b ↔
      m.isDrop = true ∧ m.fromRow = -1 ∧ m.fromCol = -1 ∧ m.promote = false ∧
      m.dropPiece ∈ moverHand b ∧
      0 ≤ m.toRow ∧ m.toRow < 5 ∧ 0 ≤ m.toCol ∧ m.toCol < 5 ∧
      (getCell b.cells m.toRow m.toCol).owner = Player.None ∧
      ¬(m.dropPiece = PieceType.Pawn ∧
        hasPawnInColumn b m.toCol b.currentTurn = true) ∧
      ¬(m.dropPiece = PieceType.Pawn ∧
        ((b.currentTurn = Player.First ∧ m.toRow = 0) ∨
         (b.currentTurn = Player.Second ∧ m.toRow = 4)))) ∧
    (GetDropMoves b).Nodup := by
  constructor
  · rw [GetDropMoves, mem_getDropMovesWith]
    constructor
    · rintro ⟨k, hk, r, hr, c, hc, howner, hnp1, hnp2, rfl⟩
      have hkh : k ∈ moverHand b := List.mem_dedup.mp hk
      refine ⟨rfl, rfl, rfl, rfl, hkh, ?_, ?_, ?_, ?_, howner, hnp1, hnp2⟩
      · show (0 : Int) ≤ (r : Int)
        exact Int.natCast_nonneg r
      · show (r : Int) < 5
        exact_mod_cast hr
      · show (0 : Int) ≤ (c : Int)
        exact Int.natCast_nonneg c
      · show (c : Int) < 5
        exact_mod_cast hc
    · rintro ⟨h1, h2, h3, h4, h5, h6, h7, h8, h9, h10, h11, h12⟩
      refine ⟨m.dropPiece, List.mem_dedup.mpr h5, m.toRow.toNat, by omega,
        m.toCol.toNat, by omega, ?_, ?_, ?_, ?_⟩
      · rw [Int.toNat_of_nonneg h6, Int.toNat_of_nonneg h8]
        exact h10
      · rw [Int.toNat_of_nonneg h8]
        exact h11
      · rw [Int.toNat_of_nonneg h6]
        exact h12
      · cases m
        simp only [Move.mk.injEq]
        simp_all
  · exact getDropMovesWith_nodup b (stdKinds b) (List.nodup_dedup _)

/-- Step-generated moves (King/Gold-style walkers and the extra steps of
the promoted sliders) never carry the promote flag. -/
theorem mem_stepMoves (b : Board) (row col : Int) (dirs : List (Int × Int))
    (m : Move) (hm : m ∈ stepMoves b row col dirs) : m.promote = false := by
  simp only [stepMoves, List.mem_flatMap] at hm
  obtain ⟨d, _, hm⟩ := hm
  split_ifs at hm
  · rw [List.mem_singleton.mp hm]
  · exact absurd hm (List.not_mem_nil m)

/-- Promotion discipline of the sliding loop: a promote-flagged move
only arises for an unpromoted Bishop/Rook into the zone, and for those
pieces an in-zone destination always yields both variants while an
out-of-zone destination yields only the unflagged move. -/
theorem slideLoop_promote (b : Board) (piece : Piece) (row col : Int)
    (d : Int × Int) :
    ∀ fuel m, m ∈ slideLoop b piece row col d fuel →
      (m.promote = true →
        (piece.type = PieceType.Bishop ∨ piece.type = PieceType.Rook) ∧
        canPromote piece.owner m.toRow = true) ∧
      ((piece.type = PieceType.Bishop ∨ piece.type = PieceType.Rook) →
        (canPromote piece.owner m.toRow = true →
          { m with promote := true } ∈ slideLoop b piece row col d fuel ∧
          { m with promote := false } ∈ slideLoop b piece row col d fuel) ∧
        (canPromote piece.owner m.toRow = false → m.promote = false)) := by
  intro fuel
  induction fuel with
  | zero =>
    intro m hm
    simp [slideLoop] at hm
  | succ n ih =>
    intro m hm
    rw [slideLoop] at hm ⊢
    by_cases h1 : ¬ isInBoard (row + d.1 * ((5 - (n + 1) : Nat) : Int))
        (col + d.2 * ((5 - (n + 1) : Nat) : Int)) = true
    · rw [if_pos h1] at hm
      exact absurd hm (List.not_mem_nil m)
    · rw [if_neg h1] at hm ⊢
      by_cases h2 : (getCell b.cells (row + d.1 * ((5 - (n + 1) : Nat) : Int))
          (col + d.2 * ((5 - (n + 1) : Nat) : Int))).owner = piece.owner
      · rw [if_pos h2] at hm
        exact absurd hm (List.not_mem_nil m)
      · rw [if_neg h2] at hm ⊢
        by_cases h3 : (piece.type = PieceType.Bishop ∨ piece.type = PieceType.Rook) ∧
            canPromote piece.owner (row + d.1 * ((5 - (n + 1) : Nat) : Int)) = true
        · rw [if_pos h3] at hm ⊢
          rcases List.mem_append.mp hm with hnode | hrest
          · rcases List.mem_append.mp hnode with hp | hn
            · have := List.mem_singleton.mp hp
              subst this
              refine ⟨fun _ => h3, fun _ => ⟨fun _ => ?_, fun hcz => ?_⟩⟩
              · exact ⟨List.mem_append_left _ (List.mem_append_left _
                    (List.mem_singleton.mpr rfl)),
                  List.mem_append_left _ (List.mem_append_right _
                    (List.mem_singleton.mpr rfl))⟩
              · exact absurd h3.2 (by simpa using hcz)
            · have := List.mem_singleton.mp hn
              subst this
              refine ⟨fun hpr => by simp at hpr,
                fun _ => ⟨fun _ => ?_, fun _ => rfl⟩⟩
              exact ⟨List.mem_append_left _ (List.mem_append_left _
                    (List.mem_singleton.mpr rfl)),
                List.mem_append_left _ (List.mem_append_right _
                  (List.mem_singleton.mpr rfl))⟩
          · split_ifs at hrest with h4
            · exact absurd hrest (List.not_mem_nil m)
            · obtain ⟨c1, c2⟩ := ih m hrest
              refine ⟨c1, fun hbr => ⟨fun hcn => ?_, fun hcz => (c2 hbr).2 hcz⟩⟩
              obtain ⟨w1, w2⟩ := (c2 hbr).1 hcn
              rw [if_neg h4]
              exact ⟨List.mem_append_right _ w1, List.mem_append_right _ w2⟩
        · rw [if_neg h3] at hm ⊢
          rcases List.mem_append.mp hm with hnode | hrest
          · simp only [List.nil_append, List.mem_singleton] at hnode
            subst hnode
            refine ⟨fun hpr => by simp at hpr,
              fun hbr => ⟨fun hcn => ?_, fun _ => rfl⟩⟩
            exact absurd ⟨hbr, by simpa using hcn⟩ h3
          · split_ifs at hrest with h4
            · exact absurd hrest (List.not_mem_nil m)
            · obtain ⟨c1, c2⟩ := ih m hrest
              refine ⟨c1, fun hbr => ⟨fun hcn => ?_, fun hcz => (c2 hbr).2 hcz⟩⟩
              obtain ⟨w1, w2⟩ := (c2 hbr).1 hcn
              rw [if_neg h4]
              exact ⟨List.mem_append_right _ w1, List.mem_append_right _ w2⟩

/-- C4: every Silver/Bishop/Rook/Pawn move into the mover's promotion
zone is generated in both a promoting and a non-promoting variant, an
out-of-zone destination only non-promoting, and King, Gold and the four
promoted kinds never generate a promote-flagged move. -/
theorem getPossibleMoves_promotion (b : Board) (row col : Int) (m : Move)
    (hm : m ∈ GetPossibleMoves b row col) :
    (m.promote = true →
      promotableKind (getCell b.cells row col).type ∧
      canPromote (getCell b.cells row col).owner m.toRow = true) ∧
    (promotableKind (getCell b.cells row col).type →
      (canPromote (getCell b.cells row col).owner m.toRow = true →
        { m with promote := true } ∈ GetPossibleMoves b row col ∧
        { m with promote := false } ∈ GetPossibleMoves b row col) ∧
      (canPromote (getCell b.cells row col).owner m.toRow = false →
        m.promote = false)) := by
  simp only [GetPossibleMoves] at hm ⊢
  by_cases hguard : (getCell b.cells row col).owner = Player.None ∨
      (getCell b.cells row col).owner ≠ b.currentTurn
  · rw [if_pos hguard] at hm
    exact absurd hm (List.not_mem_nil m)
  · rw [if_neg hguard] at hm ⊢
    cases hty : (getCell b.cells row col).type with
    | Empty =>
      simp only [hty] at hm
      exact absurd hm (List.not_mem_nil m)
    | King =>
      simp only [hty] at hm ⊢
      exact ⟨fun hpr => absurd hpr (by simp [mem_stepMoves b row col _ m hm]),
        fun hbr => by simp [promotableKind] at hbr⟩
    | Gold =>
      simp only [hty] at hm ⊢
      exact ⟨fun hpr => absurd hpr (by simp [mem_stepMoves b row col _ m hm]),
        fun hbr => by simp [promotableKind] at hbr⟩
    | PromotedSilver =>
      simp only [hty] at hm ⊢
      exact ⟨fun hpr => absurd hpr (by simp [mem_stepMoves b row col _ m hm]),
        fun hbr => by simp [promotableKind] at hbr⟩
    | PromotedPawn =>
      simp only [hty] at hm ⊢
      exact ⟨fun hpr => absurd hpr (by simp [mem_stepMoves b row col _ m hm]),
        fun hbr => by simp [promotableKind] at hbr⟩
    | Silver =>
      simp only [hty] at hm ⊢
      rw [List.mem_flatMap] at hm
      obtain ⟨d, hd, hmd⟩ := hm
      by_cases hv : isValidMove b row col (row + d.1) (col + d.2) = true
      · rw [if_pos hv] at hmd
        by_cases h3 : canPromote (getCell b.cells row col).owner (row + d.1) = true
        · rw [if_pos h3] at hmd
          have hboth :
              (⟨row, col, row + d.1, col + d.2, false, PieceType.Empty, true⟩ :
                Move) ∈ (getSilverMoves (getCell b.cells row col).owner).flatMap
                  (fun d => if isValidMove b row col (row + d.1) (col + d.2) = true
                    then (if canPromote (getCell b.cells row col).owner (row + d.1) = true
                      then [⟨row, col, row + d.1, col + d.2, false, PieceType.Empty, true⟩]
                      else []) ++
                      [⟨row, col, row + d.1, col + d.2, false, PieceType.Empty, false⟩]
                    else []) ∧
              (⟨row, col, row + d.1, col + d.2, false, PieceType.Empty, false⟩ :
                Move) ∈ (getSilverMoves (getCell b.cells row col).owner).flatMap
                  (fun d => if isValidMove b row col (row + d.1) (col + d.2) = true
                    then (if canPromote (getCell b.cells row col).owner (row + d.1) = true
                      then [⟨row, col, row + d.1, col + d.2, false, PieceType.Empty, true⟩]
                      else []) ++
                      [⟨row, col, row + d.1, col + d.2, false, PieceType.Empty, false⟩]
                    else []) := by
            constructor
            · exact List.mem_flatMap.mpr ⟨d, hd, by
                rw [if_pos hv, if_pos h3]
                exact List.mem_append_left _ (List.mem_singleton.mpr rfl)⟩
            · exact List.mem_flatMap.mpr ⟨d, hd, by
                rw [if_pos hv, if_pos h3]
                exact List.mem_append_right _ (List.mem_singleton.mpr rfl)⟩
          rcases List.mem_append.mp hmd with hp | hn
          · have := List.mem_singleton.mp hp
            subst this
            exact ⟨fun _ => ⟨by simp [promotableKind], by simpa using h3⟩,
              fun _ => ⟨fun _ => hboth, fun hcz => absurd h3 (by simpa using hcz)⟩⟩
          · have := List.mem_singleton.mp hn
            subst this
            exact ⟨fun hpr => by simp at hpr,
              fun _ => ⟨fun _ => hboth, fun _ => rfl⟩⟩
        · rw [if_neg h3, List.nil_append] at hmd
          have := List.mem_singleton.mp hmd
          subst this
          refine ⟨fun hpr => by simp at hpr,
            fun _ => ⟨fun hcn => absurd (by simpa using hcn) h3, fun _ => rfl⟩⟩
      · rw [if_neg hv] at hmd
        exact absurd hmd (List.not_mem_nil m)
    | Pawn =>
      simp only [hty] at hm ⊢
      by_cases hv : isValidMove b row col
          (row + (if (getCell b.cells row col).owner = Player.Second then 1 else -1))
          col = true
      · rw [if_pos hv] at hm ⊢
        by_cases h3 : canPromote (getCell b.cells row col).owner
            (row + (if (getCell b.cells row col).owner = Player.Second then 1 else -1)) = true
        · rw [if_pos h3] at hm ⊢
          rcases List.mem_append.mp hm with hp | hn
          · have := List.mem_singleton.mp hp
            subst this
            exact ⟨fun _ => ⟨by simp [promotableKind], by simpa using h3⟩,
              fun _ => ⟨fun _ =>
                ⟨List.mem_append_left _ (List.mem_singleton.mpr rfl),
                 List.mem_append_right _ (List.mem_singleton.mpr rfl)⟩,
                fun hcz => absurd h3 (by simpa using hcz)⟩⟩
          · have := List.mem_singleton.mp hn
            subst this
            exact ⟨fun hpr => by simp at hpr,
              fun _ => ⟨fun _ =>
                ⟨List.mem_append_left _ (List.mem_singleton.mpr rfl),
                 List.mem_append_right _ (List.mem_singleton.mpr rfl)⟩,
                fun _ => rfl⟩⟩
        · rw [if_neg h3, List.nil_append] at hm
          have := List.mem_singleton.mp hm
          subst this
          refine ⟨fun hpr => by simp at hpr,
            fun _ => ⟨fun hcn => absurd (by simpa using hcn) h3, fun _ => rfl⟩⟩
      · rw [if_neg hv] at hm
        exact absurd hm (List.not_mem_nil m)
    | Bishop =>
      simp only [hty] at hm ⊢
      rw [List.mem_flatMap] at hm
      obtain ⟨d, hd, hmd⟩ := hm
      obtain ⟨c1, c2⟩ := slideLoop_promote b (getCell b.cells row col) row col d 4 m hmd
      refine ⟨fun hpr => ⟨by simp [promotableKind], (c1 hpr).2⟩,
        fun _ => ⟨fun hcn => ?_, fun hcz => (c2 (Or.inl hty)).2 hcz⟩⟩
      obtain ⟨w1, w2⟩ := (c2 (Or.inl hty)).1 hcn
      exact ⟨List.mem_flatMap.mpr ⟨d, hd, w1⟩, List.mem_flatMap.mpr ⟨d, hd, w2⟩⟩
    | Rook =>
      simp only [hty] at hm ⊢
      rw [List.mem_flatMap] at hm
      obtain ⟨d, hd, hmd⟩ := hm
      obtain ⟨c1, c2⟩ := slideLoop_promote b (getCell b.cells row col) row col d 4 m hmd
      refine ⟨fun hpr => ⟨by simp [promotableKind], (c1 hpr).2⟩,
        fun _ => ⟨fun hcn => ?_, fun hcz => (c2 (Or.inr hty)).2 hcz⟩⟩
      obtain ⟨w1, w2⟩ := (c2 (Or.inr hty)).1 hcn
      exact ⟨List.mem_flatMap.mpr ⟨d, hd, w1⟩, List.mem_flatMap.mpr ⟨d, hd, w2⟩⟩
    | PromotedBishop =>
      simp only [hty] at hm ⊢
      refine ⟨fun hpr => ?_, fun hbr => by simp [promotableKind] at hbr⟩
      rcases List.mem_append.mp hm with hs | hstep
      · rw [List.mem_flatMap] at hs
        obtain ⟨d, hd, hmd⟩ := hs
        obtain ⟨c1, _⟩ := slideLoop_promote b (getCell b.cells row col) row col d 4 m hmd
        rcases (c1 hpr).1 with h | h <;> rw [hty] at h <;> simp at h
      · exact absurd hpr (by simp [mem_stepMoves b row col _ m hstep])
    | PromotedRook =>
      simp only [hty] at hm ⊢
      refine ⟨fun hpr => ?_, fun hbr => by simp [promotableKind] at hbr⟩
      rcases List.mem_append.mp hm with hs | hstep
      · rw [List.mem_flatMap] at hs
        obtain ⟨d, hd, hmd⟩ := hs
        obtain ⟨c1, _⟩ := slideLoop_promote b (getCell b.cells row col) row col d 4 m hmd
        rcases (c1 hpr).1 with h | h <;> rw [hty] at h <;> simp at h
      · exact absurd hpr (by simp [mem_stepMoves b row col _ m hstep])

/-- C4 witness: the initial pawn push, out of the zone, is generated
only without promotion. -/
theorem getPossibleMoves_promotion_witness :
    pm1 ∈ GetPossibleMoves NewBoard 3 0 ∧
    (promotableKind (getCell NewBoard.cells 3 0).type →
      (canPromote (getCell NewBoard.cells 3 0).owner pm1.toRow = true →
        { pm1 with promote := true } ∈ GetPossibleMoves NewBoard 3 0 ∧
        { pm1 with promote := false } ∈ GetPossibleMoves NewBoard 3 0) ∧
      (canPromote (getCell NewBoard.cells 3 0).owner pm1.toRow = false →
        pm1.promote = false)) :=
  ⟨by decide, (getPossibleMoves_promotion NewBoard 3 0 pm1 (by decide)).2⟩

/-- Ties never replace the maximizing incumbent: when every remaining
child score is at most the running maximum, the loop returns the
incumbent score and move unchanged. -/
theorem maxLoop_ties_keep (f : Board → Int → Int → Int) (b : Board) (beta : Int) :
    ∀ (l : List Move) (alpha e : Int) (w : Option Move),
      (∀ m ∈ l, ∀ a, f (MakeMove b m) a beta ≤ e) →
      maxLoop f b beta l alpha e w = (e, w) := by
  intro l
  induction l with
  | nil => intro alpha e w _; rfl
  | cons m ms ih =>
    intro alpha e w hall
    have hle : f (MakeMove b m) alpha beta ≤ e :=
      hall m (List.mem_cons_self m ms) alpha
    simp only [maxLoop]
    rw [if_neg (not_lt.mpr hle), if_neg (not_lt.mpr hle)]
    split_ifs
    · rfl
    · exact ih _ _ _ fun m' hm' a => hall m' (List.mem_cons_of_mem m hm') a

/-- The first candidate that strictly improves the maximizing incumbent
is the move returned, and later candidates that merely tie it never
replace it. -/
theorem maxLoop_first_wins (f : Board → Int → Int → Int) (b : Board)
    (beta : Int) (m : Move) (ms : List Move) (alpha e : Int) (w : Option Move)
    (himp : e < f (MakeMove b m) alpha beta)
    (hrest : ∀ m' ∈ ms, ∀ a,
      f (MakeMove b m') a beta ≤ f (MakeMove b m) alpha beta) :
    maxLoop f b beta (m :: ms) alpha e w =
      (f (MakeMove b m) alpha beta, some m) := by
  simp only [maxLoop]
  rw [if_pos himp, if_pos himp]
  split_ifs
  · rfl
  · exact maxLoop_ties_keep f b beta ms _ _ _ hrest

/-- Once beta ≤ alpha after a candidate, the maximizing loop never
examines the remaining candidates. -/
theorem maxLoop_cutoff (f : Board → Int → Int → Int) (b : Board)
    (beta : Int) (m : Move) (ms : List Move) (alpha e : Int) (w : Option Move)
    (hcut : beta ≤ max alpha (f (MakeMove b m) alpha beta)) :
    maxLoop f b beta (m :: ms) alpha e w = maxLoop f b beta [m] alpha e w := by
  simp only [maxLoop]
  rw [if_pos hcut, if_pos hcut]

/-- Ties never replace the minimizing incumbent. -/
theorem minLoop_ties_keep (f : Board → Int → Int → Int) (b : Board) (alpha : Int) :
    ∀ (l : List Move) (beta e : Int) (w : Option Move),
      (∀ m ∈ l, ∀ bt, e ≤ f (MakeMove b m) alpha bt) →
      minLoop f b alpha l beta e w = (e, w) := by
  intro l
  induction l with
  | nil => intro beta e w _; rfl
  | cons m ms ih =>
    intro beta e w hall
    have hle : e ≤ f (MakeMove b m) alpha beta :=
      hall m (List.mem_cons_self m ms) beta
    simp only [minLoop]
    rw [if_neg (not_lt.mpr hle), if_neg (not_lt.mpr hle)]
    split_ifs
    · rfl
    · exact ih _ _ _ fun m' hm' bt => hall m' (List.mem_cons_of_mem m hm') bt

/-- The first candidate that strictly improves the minimizing incumbent
is the move returned. -/
theorem minLoop_first_wins (f : Board → Int → Int → Int) (b : Board)
    (alpha : Int) (m : Move) (ms : List Move) (beta e : Int) (w : Option Move)
    (himp : f (MakeMove b m) alpha beta < e)
    (hrest : ∀ m' ∈ ms, ∀ bt,
      f (MakeMove b m) alpha beta ≤ f (MakeMove b m') alpha bt) :
    minLoop f b alpha (m :: ms) beta e w =
      (f (MakeMove b m) alpha beta, some m) := by
  simp only [minLoop]
  rw [if_pos himp, if_pos himp]
  split_ifs
  · rfl
  · exact minLoop_ties_keep f b alpha ms _ _ _ hrest

/-- Once beta ≤ alpha after a candidate, the minimizing loop never
examines the remaining candidates. -/
theorem minLoop_cutoff (f : Board → Int → Int → Int) (b : Board)
    (alpha : Int) (m : Move) (ms : List Move) (beta e : Int) (w : Option Move)
    (hcut : min beta (f (MakeMove b m) alpha beta) ≤ alpha) :
    minLoop f b alpha (m :: ms) beta e w = minLoop f b alpha [m] beta e w := by
  simp only [minLoop]
  rw [if_pos hcut, if_pos hcut]

/-- C7: in Minimax's candidate loops the incumbent is replaced only on a
strict improvement (maximizing: strictly greater; minimizing: strictly
smaller), so the first of equally scored candidates is the move
returned, and iteration stops as soon as beta ≤ alpha. -/
theorem minimax_loop_selection :
    (∀ (f : Board → Int → Int → Int) (b : Board) (beta : Int)
        (l : List Move) (alpha e : Int) (w : Option Move),
      (∀ m ∈ l, ∀ a, f (MakeMove b m) a beta ≤ e) →
      maxLoop f b beta l alpha e w = (e, w)) ∧
    (∀ (f : Board → Int → Int → Int) (b : Board) (beta : Int) (m : Move)
        (ms : List Move) (alpha e : Int) (w : Option Move),
      e < f (MakeMove b m) alpha beta →
      (∀ m' ∈ ms, ∀ a, f (MakeMove b m') a beta ≤ f (MakeMove b m) alpha beta) →
      maxLoop f b beta (m :: ms) alpha e w = (f (MakeMove b m) alpha beta, some m)) ∧
    (∀ (f : Board → Int → Int → Int) (b : Board) (beta : Int) (m : Move)
        (ms : List Move) (alpha e : Int) (w : Option Move),
      beta ≤ max alpha (f (MakeMove b m) alpha beta) →
      maxLoop f b beta (m :: ms) alpha e w = maxLoop f b beta [m] alpha e w) ∧
    (∀ (f : Board → Int → Int → Int) (b : Board) (alpha : Int)
        (l : List Move) (beta e : Int) (w : Option Move),
      (∀ m ∈ l, ∀ bt, e ≤ f (MakeMove b m) alpha bt) →
      minLoop f b alpha l beta e w = (e, w)) ∧
    (∀ (f : Board → Int → Int → Int) (b : Board) (alpha : Int) (m : Move)
        (ms : List Move) (beta e : Int) (w : Option Move),
      f (MakeMove b m) alpha beta < e →
      (∀ m' ∈ ms, ∀ bt, f (MakeMove b m) alpha beta ≤ f (MakeMove b m') alpha bt) →
      minLoop f b alpha (m :: ms) beta e w = (f (MakeMove b m) alpha beta, some m)) ∧
    (∀ (f : Board → Int → Int → Int) (b : Board) (alpha : Int) (m : Move)
        (ms : List Move) (beta e : Int) (w : Option Move),
      min beta (f (MakeMove b m) alpha beta) ≤ alpha →
      minLoop f b alpha (m :: ms) beta e w = minLoop f b alpha [m] beta e w) :=
  ⟨fun f b beta l alpha e w h => maxLoop_ties_keep f b beta l alpha e w h,
   fun f b beta m ms alpha e w h1 h2 => maxLoop_first_wins f b beta m ms alpha e w h1 h2,
   fun f b beta m ms alpha e w h => maxLoop_cutoff f b beta m ms alpha e w h,
   fun f b alpha l beta e w h => minLoop_ties_keep f b alpha l beta e w h,
   fun f b alpha m ms beta e w h1 h2 => minLoop_first_wins f b alpha m ms beta e w h1 h2,
   fun f b alpha m ms beta e w h => minLoop_cutoff f b alpha m ms beta e w h⟩

/-- Under treeBoundedWith, the unpruned minimax value stays strictly
inside the sentinel window. -/
theorem plainMinimaxWith_bounds (σ : Board → List PieceType) :
    ∀ (d : Nat) (b : Board) (mx : Bool),
      treeBoundedWith σ d b = true →
      -999999 < plainMinimaxWith σ d b mx ∧ plainMinimaxWith σ d b mx < 999999 := by
  intro d
  induction d with
  | zero =>
    intro b mx h
    exact of_decide_eq_true h
  | succ d ih =>
    intro b mx h
    rw [treeBoundedWith, Bool.and_eq_true, List.all_eq_true] at h
    obtain ⟨hself, hall⟩ := h
    have hselfp := of_decide_eq_true hself
    simp only [plainMinimaxWith]
    by_cases hgo : (IsGameOver b).1 = true
    · rw [if_pos hgo]
      exact hselfp
    · rw [if_neg hgo]
      by_cases hemp : (GetAllLegalMovesWith b (σ b)).isEmpty = true
      · rw [if_pos hemp]
        exact hselfp
      · rw [if_neg hemp]
        cases hmv : GetAllLegalMovesWith b (σ b) with
        | nil => rw [hmv] at hemp; simp at hemp
        | cons m ms =>
          have hallm : ∀ m' ∈ GetAllLegalMovesWith b (σ b),
              treeBoundedWith σ d (MakeMove b m') = true := fun m' hm' =>
            hall m' hm'
          rw [hmv] at hallm
          cases mx with
          | true =>
            rw [if_pos rfl]
            constructor
            · show -999999 < foldScores
                (fun m => plainMinimaxWith σ d (MakeMove b m) false) (-999999) (m :: ms)
              have h1 := (ih (MakeMove b m) false
                (hallm m (List.mem_cons_self m ms))).1
              calc -999999 < plainMinimaxWith σ d (MakeMove b m) false := h1
                _ ≤ max (-999999) (plainMinimaxWith σ d (MakeMove b m) false) :=
                    le_max_right _ _
                _ ≤ foldScores (fun m => plainMinimaxWith σ d (MakeMove b m) false)
                      (max (-999999) (plainMinimaxWith σ d (MakeMove b m) false)) ms :=
                    le_foldScores _ _ ms
            · show foldScores
                (fun m => plainMinimaxWith σ d (MakeMove b m) false) (-999999) (m :: ms)
                < 999999
              exact foldScores_lt _ _ _ _ (by omega)
                fun m' hm' => (ih (MakeMove b m') false (hallm m' hm')).2
          | false =>
            rw [if_neg (by simp)]
            constructor
            · show -999999 < foldScoresMin
                (fun m => plainMinimaxWith σ d (MakeMove b m) true) 999999 (m :: ms)
              exact lt_foldScoresMin _ _ _ _ (by omega)
                fun m' hm' => (ih (MakeMove b m') true (hallm m' hm')).1
            · show foldScoresMin
                (fun m => plainMinimaxWith σ d (MakeMove b m) true) 999999 (m :: ms)
                < 999999
              have h1 := (ih (MakeMove b m) true
                (hallm m (List.mem_cons_self m ms))).2
              calc foldScoresMin (fun m => plainMinimaxWith σ d (MakeMove b m) true)
                    (min 999999 (plainMinimaxWith σ d (MakeMove b m) true)) ms
                  ≤ min 999999 (plainMinimaxWith σ d (MakeMove b m) true) :=
                    foldScoresMin_le _ _ ms
                _ ≤ plainMinimaxWith σ d (MakeMove b m) true := min_le_right _ _
                _ < 999999 := h1

/-- Fail-soft window correctness of the maximizing loop: given that
each child evaluation obeys the three-way fail-soft specification with
respect to its window, the loop's running result obeys it with respect
to the fold of the true child scores. -/
theorem maxLoop_window (f : Board → Int → Int → Int) (b : Board) (beta : Int)
    (w : Move → Int) :
    ∀ (l : List Move) (alpha e : Int) (wm : Option Move),
      -999999 ≤ alpha → alpha < beta → e ≤ alpha →
      (∀ m ∈ l, ∀ a, -999999 ≤ a → a < beta →
        ((a < w m ∧ w m < beta) → f (MakeMove b m) a beta = w m) ∧
        (w m ≤ a → f (MakeMove b m) a beta ≤ a ∧ w m ≤ f (MakeMove b m) a beta) ∧
        (beta ≤ w m → beta ≤ f (MakeMove b m) a beta ∧
          f (MakeMove b m) a beta ≤ w m)) →
      ((alpha < foldScores w e l ∧ foldScores w e l < beta) →
        (maxLoop f b beta l alpha e wm).1 = foldScores w e l) ∧
      (foldScores w e l ≤ alpha →
        (maxLoop f b beta l alpha e wm).1 ≤ alpha ∧
        foldScores w e l ≤ (maxLoop f b beta l alpha e wm).1) ∧
      (beta ≤ foldScores w e l →
        beta ≤ (maxLoop f b beta l alpha e wm).1 ∧
        (maxLoop f b beta l alpha e wm).1 ≤ foldScores w e l) := by
  intro l
  induction l with
  | nil =>
    intro alpha e wm hα hab he _
    exact ⟨fun h => rfl, fun h => ⟨h, le_refl e⟩, fun h => ⟨h, le_refl e⟩⟩
  | cons m ms ih =>
    intro alpha e wm hα hab he Hf
    have hfm := Hf m (List.mem_cons_self m ms) alpha hα hab
    have Hf' : ∀ m' ∈ ms, ∀ a, -999999 ≤ a → a < beta →
        ((a < w m' ∧ w m' < beta) → f (MakeMove b m') a beta = w m') ∧
        (w m' ≤ a → f (MakeMove b m') a beta ≤ a ∧ w m' ≤ f (MakeMove b m') a beta) ∧
        (beta ≤ w m' → beta ≤ f (MakeMove b m') a beta ∧
          f (MakeMove b m') a beta ≤ w m') :=
      fun m' hm' => Hf m' (List.mem_cons_of_mem m hm')
    set eval := f (MakeMove b m) alpha beta with heval
    have hstep : maxLoop f b beta (m :: ms) alpha e wm =
        if beta ≤ max alpha eval then
          ((if e < eval then eval else e), (if e < eval then some m else wm))
        else maxLoop f b beta ms (max alpha eval)
          (if e < eval then eval else e) (if e < eval then some m else wm) := by
      simp only [maxLoop]
    have hVcons : foldScores w e (m :: ms) = foldScores w (max e (w m)) ms := rfl
    have hVe : foldScores w e (m :: ms) = max (w m) (foldScores w e ms) := by
      show foldScores w (max e (w m)) ms = _
      rw [max_comm e (w m), foldScores_init]
    rcases le_or_lt (w m) alpha with hva | hva
    · obtain ⟨ha1, ha2⟩ := hfm.2.1 hva
      have hae : max alpha eval = alpha := max_eq_left ha1
      have hnc : ¬ beta ≤ max alpha eval := by
        rw [hae]
        exact not_le.mpr hab
      rw [hstep, if_neg hnc, hae]
      have he' : (if e < eval then eval else e) ≤ alpha := by
        rw [if_lt_max]
        exact max_le he ha1
      have IH := ih alpha (if e < eval then eval else e)
        (if e < eval then some m else wm) hα hab he' Hf'
      have hV'e : foldScores w (if e < eval then eval else e) ms =
          max eval (foldScores w e ms) := by
        rw [if_lt_max, max_comm e eval, foldScores_init]
      refine ⟨?_, ?_, ?_⟩
      · rintro ⟨h1, h2⟩
        have hFgt : alpha < foldScores w e ms := by
          by_contra hno
          push_neg at hno
          have hle : foldScores w e (m :: ms) ≤ alpha := by
            rw [hVe]
            exact max_le hva hno
          omega
        have hVF : foldScores w e (m :: ms) = foldScores w e ms := by
          rw [hVe]
          exact max_eq_right (le_trans hva hFgt.le)
        have hV'F : foldScores w (if e < eval then eval else e) ms =
            foldScores w e ms := by
          rw [hV'e]
          exact max_eq_right (le_trans ha1 hFgt.le)
        have hmain := IH.1 ⟨by rw [hV'F]; exact hFgt,
          by rw [hV'F, ← hVF]; exact h2⟩
        rw [hmain, hV'F, hVF]
      · intro h
        have hFle : foldScores w e ms ≤ alpha :=
          le_trans (by rw [hVe]; exact le_max_right _ _) h
        have hV'le : foldScores w (if e < eval then eval else e) ms ≤ alpha := by
          rw [hV'e]
          exact max_le ha1 hFle
        obtain ⟨r1, r2⟩ := IH.2.1 hV'le
        refine ⟨r1, ?_⟩
        rw [hVe]
        refine max_le ?_ ?_
        · exact le_trans ha2 (le_trans (by rw [hV'e]; exact le_max_left _ _) r2)
        · exact le_trans (by rw [hV'e]; exact le_max_right _ _) r2
      · intro h
        have hFge : beta ≤ foldScores w e ms := by
          rw [hVe] at h
          rcases le_max_iff.mp h with hcase | hcase
          · omega
          · exact hcase
        have hV'ge : beta ≤ foldScores w (if e < eval then eval else e) ms := by
          rw [hV'e]
          exact le_trans hFge (le_max_right _ _)
        obtain ⟨r1, r2⟩ := IH.2.2 hV'ge
        refine ⟨r1, ?_⟩
        have hV'F : foldScores w (if e < eval then eval else e) ms =
            foldScores w e ms := by
          rw [hV'e]
          exact max_eq_right (le_trans ha1 (by omega))
        rw [hVe]
        rw [hV'F] at r2
        exact le_trans r2 (le_max_right _ _)
    · rcases lt_or_ge (w m) beta with hvb | hvb
      · have heq : eval = w m := hfm.1 ⟨hva, hvb⟩
        have hnc : ¬ beta ≤ max alpha eval := by
          rw [heq]
          exact not_le.mpr (max_lt hab hvb)
        rw [hstep, if_neg hnc]
        have he'' : (if e < eval then eval else e) = max e (w m) := by
          rw [if_lt_max, heq]
        have hα' : -999999 ≤ max alpha eval := le_trans hα (le_max_left _ _)
        have hab' : max alpha eval < beta := by
          rw [heq]
          exact max_lt hab hvb
        have he' : (if e < eval then eval else e) ≤ max alpha eval := by
          rw [he'', heq]
          exact max_le (le_trans he (le_max_left _ _)) (le_max_right _ _)
        have IH := ih (max alpha eval) (if e < eval then eval else e)
          (if e < eval then some m else wm) hα' hab' he' Hf'
        have hVV' : foldScores w (if e < eval then eval else e) ms =
            foldScores w e (m :: ms) := by
          rw [he'', hVcons]
        have hvV : w m ≤ foldScores w e (m :: ms) := by
          rw [hVcons]
          exact le_trans (le_max_right e (w m)) (le_foldScores w _ ms)
        refine ⟨?_, ?_, ?_⟩
        · rintro ⟨h1, h2⟩
          rcases lt_or_ge (max alpha eval) (foldScores w e (m :: ms)) with hc | hc
          · have hmain := IH.1 ⟨by rw [hVV']; exact hc, by rw [hVV']; exact h2⟩
            rw [hmain, hVV']
          · obtain ⟨r1, r2⟩ := IH.2.1 (by rw [hVV']; exact hc)
            have hEq : max alpha eval = foldScores w e (m :: ms) := by
              refine le_antisymm ?_ hc
              rw [heq]
              exact max_le h1.le hvV
            rw [hVV'] at r2
            omega
        · intro h
          exact absurd (lt_of_lt_of_le hva (le_trans hvV h)) (lt_irrefl alpha)
        · intro h
          obtain ⟨r1, r2⟩ := IH.2.2 (by rw [hVV']; exact h)
          rw [hVV'] at r2
          exact ⟨r1, r2⟩
      · obtain ⟨hc1, hc2⟩ := hfm.2.2 hvb
        have hcut : beta ≤ max alpha eval := le_trans hc1 (le_max_right _ _)
        rw [hstep, if_pos hcut]
        have hvV : w m ≤ foldScores w e (m :: ms) := by
          rw [hVcons]
          exact le_trans (le_max_right e (w m)) (le_foldScores w _ ms)
        have heV : e ≤ foldScores w e (m :: ms) := le_foldScores w e (m :: ms)
        refine ⟨?_, ?_, ?_⟩
        · rintro ⟨_, h2⟩
          omega
        · intro h
          omega
        · intro h
          constructor
          · show beta ≤ (if e < eval then eval else e)
            rw [if_lt_max]
            exact le_trans hc1 (le_max_right e eval)
          · show (if e < eval then eval else e) ≤ foldScores w e (m :: ms)
            rw [if_lt_max]
            exact max_le heV (le_trans hc2 hvV)

/-- Fail-soft window correctness of the minimizing loop, dual to
maxLoop_window. -/
theorem minLoop_window (f : Board → Int → Int → Int) (b : Board) (alpha : Int)
    (w : Move → Int) :
    ∀ (l : List Move) (beta e : Int) (wm : Option Move),
      beta ≤ 999999 → alpha < beta → beta ≤ e →
      (∀ m ∈ l, ∀ bt, bt ≤ 999999 → alpha < bt →
        ((alpha < w m ∧ w m < bt) → f (MakeMove b m) alpha bt = w m) ∧
        (w m ≤ alpha → f (MakeMove b m) alpha bt ≤ alpha ∧
          w m ≤ f (MakeMove b m) alpha bt) ∧
        (bt ≤ w m → bt ≤ f (MakeMove b m) alpha bt ∧
          f (MakeMove b m) alpha bt ≤ w m)) →
      ((alpha < foldScoresMin w e l ∧ foldScoresMin w e l < beta) →
        (minLoop f b alpha l beta e wm).1 = foldScoresMin w e l) ∧
      (foldScoresMin w e l ≤ alpha →
        (minLoop f b alpha l beta e wm).1 ≤ alpha ∧
        foldScoresMin w e l ≤ (minLoop f b alpha l beta e wm).1) ∧
      (beta ≤ foldScoresMin w e l →
        beta ≤ (minLoop f b alpha l beta e wm).1 ∧
        (minLoop f b alpha l beta e wm).1 ≤ foldScoresMin w e l) := by
  intro l
  induction l with
  | nil =>
    intro beta e wm hβ hab he _
    exact ⟨fun h => rfl, fun h => ⟨h, le_refl e⟩, fun h => ⟨h, le_refl e⟩⟩
  | cons m ms ih =>
    intro beta e wm hβ hab he Hf
    have hfm := Hf m (List.mem_cons_self m ms) beta hβ hab
    have Hf' : ∀ m' ∈ ms, ∀ bt, bt ≤ 999999 → alpha < bt →
        ((alpha < w m' ∧ w m' < bt) → f (MakeMove b m') alpha bt = w m') ∧
        (w m' ≤ alpha → f (MakeMove b m') alpha bt ≤ alpha ∧
          w m' ≤ f (MakeMove b m') alpha bt) ∧
        (bt ≤ w m' → bt ≤ f (MakeMove b m') alpha bt ∧
          f (MakeMove b m') alpha bt ≤ w m') :=
      fun m' hm' => Hf m' (List.mem_cons_of_mem m hm')
    set eval := f (MakeMove b m) alpha beta with heval
    have hstep : minLoop f b alpha (m :: ms) beta e wm =
        if min beta eval ≤ alpha then
          ((if eval < e then eval else e), (if eval < e then some m else wm))
        else minLoop f b alpha ms (min beta eval)
          (if eval < e then eval else e) (if eval < e then some m else wm) := by
      simp only [minLoop]
    have hVcons : foldScoresMin w e (m :: ms) =
        foldScoresMin w (min e (w m)) ms := rfl
    have hVe : foldScoresMin w e (m :: ms) =
        min (w m) (foldScoresMin w e ms) := by
      show foldScoresMin w (min e (w m)) ms = _
      rw [min_comm e (w m), foldScoresMin_init]
    rcases le_or_lt (w m) alpha with hva | hva
    · obtain ⟨ha1, ha2⟩ := hfm.2.1 hva
      have hcut : min beta eval ≤ alpha :=
        le_trans (min_le_right beta eval) ha1
      rw [hstep, if_pos hcut]
      have hvV : foldScoresMin w e (m :: ms) ≤ w m := by
        rw [hVcons]
        exact le_trans (foldScoresMin_le w _ ms) (min_le_right e (w m))
      have heV : foldScoresMin w e (m :: ms) ≤ e := foldScoresMin_le w e (m :: ms)
      refine ⟨?_, ?_, ?_⟩
      · rintro ⟨h1, _⟩
        omega
      · intro h
        constructor
        · show (if eval < e then eval else e) ≤ alpha
          rw [if_lt_min]
          exact le_trans (min_le_right e eval) ha1
        · show foldScoresMin w e (m :: ms) ≤ (if eval < e then eval else e)
          rw [if_lt_min]
          exact le_min heV (le_trans hvV ha2)
      · intro h
        omega
    · rcases lt_or_ge (w m) beta with hvb | hvb
      · have heq : eval = w m := hfm.1 ⟨hva, hvb⟩
        have hnc : ¬ min beta eval ≤ alpha := by
          rw [heq]
          exact not_le.mpr (lt_min hab hva)
        rw [hstep, if_neg hnc]
        have he'' : (if eval < e then eval else e) = min e (w m) := by
          rw [if_lt_min, heq]
        have hβ' : min beta eval ≤ 999999 := le_trans (min_le_left _ _) hβ
        have hab' : alpha < min beta eval := by
          rw [heq]
          exact lt_min hab hva
        have he' : min beta eval ≤ (if eval < e then eval else e) := by
          rw [he'', heq]
          exact min_le_min he (le_refl (w m))
        have IH := ih (min beta eval) (if eval < e then eval else e)
          (if eval < e then some m else wm) hβ' hab' he' Hf'
        have hVV' : foldScoresMin w (if eval < e then eval else e) ms =
            foldScoresMin w e (m :: ms) := by
          rw [he'', hVcons]
        have hvV : foldScoresMin w e (m :: ms) ≤ w m := by
          rw [hVcons]
          exact le_trans (foldScoresMin_le w _ ms) (min_le_right e (w m))
        refine ⟨?_, ?_, ?_⟩
        · rintro ⟨h1, h2⟩
          rcases lt_or_ge (foldScoresMin w e (m :: ms)) (min beta eval) with hc | hc
          · have hmain := IH.1 ⟨by rw [hVV']; exact h1, by rw [hVV']; exact hc⟩
            rw [hmain, hVV']
          · obtain ⟨r1, r2⟩ := IH.2.2 (by rw [hVV']; exact hc)
            have hEq : min beta eval = foldScoresMin w e (m :: ms) := by
              refine le_antisymm hc ?_
              rw [heq]
              exact le_min h2.le hvV
            rw [hVV'] at r2
            omega
        · intro h
          obtain ⟨r1, r2⟩ := IH.2.1 (by rw [hVV']; exact h)
          rw [hVV'] at r2
          exact ⟨r1, r2⟩
        · intro h
          omega
      · obtain ⟨hc1, hc2⟩ := hfm.2.2 hvb
        have hbe : min beta eval = beta := min_eq_left hc1
        have hnc : ¬ min beta eval ≤ alpha := by
          rw [hbe]
          exact not_le.mpr hab
        rw [hstep, if_neg hnc, hbe]
        have he' : beta ≤ (if eval < e then eval else e) := by
          rw [if_lt_min]
          exact le_min he hc1
        have IH := ih beta (if eval < e then eval else e)
          (if eval < e then some m else wm) hβ hab he' Hf'
        have hV'e : foldScoresMin w (if eval < e then eval else e) ms =
            min eval (foldScoresMin w e ms) := by
          rw [if_lt_min, min_comm e eval, foldScoresMin_init]
        refine ⟨?_, ?_, ?_⟩
        · rintro ⟨h1, h2⟩
          have hFlt : foldScoresMin w e ms < beta := by
            by_contra hno
            push_neg at hno
            have hge : beta ≤ foldScoresMin w e (m :: ms) := by
              rw [hVe]
              exact le_min hvb hno
            omega
          have hVF : foldScoresMin w e (m :: ms) = foldScoresMin w e ms := by
            rw [hVe]
            exact min_eq_right (by omega)
          have hV'F : foldScoresMin w (if eval < e then eval else e) ms =
              foldScoresMin w e ms := by
            rw [hV'e]
            exact min_eq_right (by omega)
          have hmain := IH.1 ⟨by rw [hV'F, ← hVF]; exact h1,
            by rw [hV'F, ← hVF]; exact h2⟩
          rw [hmain, hV'F, hVF]
        · intro h
          have hFle : foldScoresMin w e ms ≤ alpha := by
            by_contra hno
            push_neg at hno
            have hgt : alpha < foldScoresMin w e (m :: ms) := by
              rw [hVe]
              exact lt_min (by omega) hno
            omega
          have hVF : foldScoresMin w e (m :: ms) = foldScoresMin w e ms := by
            rw [hVe]
            exact min_eq_right (by omega)
          have hV'F : foldScoresMin w (if eval < e then eval else e) ms =
              foldScoresMin w e ms := by
            rw [hV'e]
            exact min_eq_right (by omega)
          obtain ⟨r1, r2⟩ := IH.2.1 (by rw [hV'F]; omega)
          refine ⟨r1, ?_⟩
          rw [hVF]
          rw [hV'F] at r2
          exact r2
        · intro h
          have hFge : beta ≤ foldScoresMin w e ms := by
            rw [hVe] at h
            exact le_trans h (min_le_right _ _)
          have hV'ge : beta ≤ foldScoresMin w (if eval < e then eval else e) ms := by
            rw [hV'e]
            exact le_min hc1 hFge
          obtain ⟨r1, r2⟩ := IH.2.2 hV'ge
          refine ⟨r1, ?_⟩
          rw [hVe]
          rw [hV'e] at r2
          exact le_trans r2 (min_le_min hc2 (le_refl _))

/-- Fail-soft window correctness of the full search: within any window
inside the sentinel bounds, the alpha-beta score matches the unpruned
minimax score whenever the latter lies strictly inside the window, and
otherwise bounds it from the correct side. -/
theorem minimaxWith_window (σ : Board → List PieceType) :
    ∀ (d : Nat) (b : Board) (alpha beta : Int) (mx : Bool),
      -999999 ≤ alpha → beta ≤ 999999 → alpha < beta →
      treeBoundedWith σ d b = true →
      (((alpha < plainMinimaxWith σ d b mx ∧ plainMinimaxWith σ d b mx < beta) →
        (MinimaxWith σ d b alpha beta mx).1 = plainMinimaxWith σ d b mx) ∧
       (plainMinimaxWith σ d b mx ≤ alpha →
        (MinimaxWith σ d b alpha beta mx).1 ≤ alpha ∧
        plainMinimaxWith σ d b mx ≤ (MinimaxWith σ d b alpha beta mx).1) ∧
       (beta ≤ plainMinimaxWith σ d b mx →
        beta ≤ (MinimaxWith σ d b alpha beta mx).1 ∧
        (MinimaxWith σ d b alpha beta mx).1 ≤ plainMinimaxWith σ d b mx)) := by
  intro d
  induction d with
  | zero =>
    intro b alpha beta mx _ _ _ _
    exact ⟨fun _ => rfl, fun h => ⟨h, le_refl _⟩, fun h => ⟨h, le_refl _⟩⟩
  | succ d ih =>
    intro b alpha beta mx hα hβ hab htb
    rw [treeBoundedWith, Bool.and_eq_true, List.all_eq_true] at htb
    obtain ⟨_, hall⟩ := htb
    simp only [MinimaxWith, plainMinimaxWith]
    by_cases hgo : (IsGameOver b).1 = true
    · rw [if_pos hgo, if_pos hgo]
      exact ⟨fun _ => rfl, fun h => ⟨h, le_refl _⟩, fun h => ⟨h, le_refl _⟩⟩
    · rw [if_neg hgo, if_neg hgo]
      by_cases hemp : (GetAllLegalMovesWith b (σ b)).isEmpty = true
      · rw [if_pos hemp, if_pos hemp]
        exact ⟨fun _ => rfl, fun h => ⟨h, le_refl _⟩, fun h => ⟨h, le_refl _⟩⟩
      · rw [if_neg hemp, if_neg hemp]
        cases mx with
        | true =>
          rw [if_pos rfl, if_pos rfl]
          exact maxLoop_window
            (fun nb a bt => (MinimaxWith σ d nb a bt false).1) b beta
            (fun m => plainMinimaxWith σ d (MakeMove b m) false)
            (GetAllLegalMovesWith b (σ b)) alpha (-999999) none
            hα hab (by omega)
            (fun m hm a ha hab2 =>
              ih (MakeMove b m) a beta false ha hβ hab2 (hall m hm))
        | false =>
          rw [if_neg (by simp), if_neg (by simp)]
          exact minLoop_window
            (fun nb a bt => (MinimaxWith σ d nb a bt true).1) b alpha
            (fun m => plainMinimaxWith σ d (MakeMove b m) true)
            (GetAllLegalMovesWith b (σ b)) beta 999999 none
            hβ hab (by omega)
            (fun m hm bt hbt hab2 =>
              ih (MakeMove b m) alpha bt true hα hbt hab2 (hall m hm))

/-- C1 (amended): with the top-level full window (-999999, 999999), the
alpha-beta score equals the unpruned minimax score of the same move
tree, for every search tree all of whose positions evaluate strictly
inside the sentinel window (true of all real-game material). -/
theorem minimax_fullwindow_eq_plain (d : Nat) (b : Board) (mx : Bool)
    (h : treeBounded d b = true) :
    (Minimax d b (-999999) 999999 mx).1 = plainMinimax d b mx := by
  have hb := plainMinimaxWith_bounds stdKinds d b mx h
  exact (minimaxWith_window stdKinds d b (-999999) 999999 mx (le_refl _)
    (le_refl _) (by omega) h).1 ⟨hb.1, hb.2⟩

/-- C1 counterexample: on a board whose hand of 126 Kings pushes every
evaluation past the 999999 sentinel, the first candidate already raises
alpha to at least beta, the loop cuts off, and the alpha-beta score at
the top-level full window differs from the unpruned minimax score. -/
theorem minimax_fullwindow_counterexample :
    (Minimax 1 sOverflow (-999999) 999999 true).1 ≠ plainMinimax 1 sOverflow true := by
  decide

/-- C1 witness: at depth 2 from the initial position the scores agree. -/
theorem minimax_fullwindow_eq_plain_witness :
    treeBounded 2 NewBoard = true ∧
    (Minimax 2 NewBoard (-999999) 999999 true).1 = plainMinimax 2 NewBoard true :=
  ⟨by decide, minimax_fullwindow_eq_plain 2 NewBoard true (by decide)⟩

/-- The move lists under two drop-kind orders are permutations of each
other whenever the kind lists are. -/
theorem getAllLegalMovesWith_perm (b : Board) (k1 k2 : List PieceType)
    (h : k1.Perm k2) :
    (GetAllLegalMovesWith b k1).Perm (GetAllLegalMovesWith b k2) :=
  List.Perm.append_left _ (List.Perm.flatMap_right _ h)

/-- The unpruned minimax score does not depend on the drop-kind
iteration order. -/
theorem plainMinimaxWith_perm (σ σ' : Board → List PieceType)
    (hperm : ∀ b, (σ b).Perm (σ' b)) :
    ∀ (d : Nat) (b : Board) (mx : Bool),
      plainMinimaxWith σ d b mx = plainMinimaxWith σ' d b mx := by
  intro d
  induction d with
  | zero => intro b mx; rfl
  | succ d ih =>
    intro b mx
    have hmv : (GetAllLegalMovesWith b (σ b)).Perm (GetAllLegalMovesWith b (σ' b)) :=
      getAllLegalMovesWith_perm b (σ b) (σ' b) (hperm b)
    simp only [plainMinimaxWith]
    by_cases hgo : (IsGameOver b).1 = true
    · rw [if_pos hgo, if_pos hgo]
    · rw [if_neg hgo, if_neg hgo]
      by_cases hemp : (GetAllLegalMovesWith b (σ b)).isEmpty = true
      · have hemp' : (GetAllLegalMovesWith b (σ' b)).isEmpty = true := by
          rw [List.isEmpty_iff] at hemp ⊢
          rw [hemp] at hmv
          exact hmv.symm.eq_nil
        rw [if_pos hemp, if_pos hemp']
      · have hemp' : ¬ (GetAllLegalMovesWith b (σ' b)).isEmpty = true := by
          intro hc
          apply hemp
          rw [List.isEmpty_iff] at hc ⊢
          rw [hc] at hmv
          exact hmv.eq_nil
        rw [if_neg hemp, if_neg hemp']
        cases mx with
        | true =>
          rw [if_pos rfl, if_pos rfl]
          haveI : RightCommutative fun (a : Int) m =>
              max a (plainMinimaxWith σ' d (MakeMove b m) false) :=
            ⟨fun x y z => by rw [max_assoc, max_comm
              (plainMinimaxWith σ' d (MakeMove b y) false), ← max_assoc]⟩
          rw [List.foldl_ext _
            (fun acc m => max acc (plainMinimaxWith σ' d (MakeMove b m) false))
            (-999999) (fun a m _ => by rw [ih (MakeMove b m) false])]
          exact hmv.foldl_eq (-999999)
        | false =>
          rw [if_neg (by simp), if_neg (by simp)]
          haveI : RightCommutative fun (a : Int) m =>
              min a (plainMinimaxWith σ' d (MakeMove b m) true) :=
            ⟨fun x y z => by rw [min_assoc, min_comm
              (plainMinimaxWith σ' d (MakeMove b y) true), ← min_assoc]⟩
          rw [List.foldl_ext _
            (fun acc m => min acc (plainMinimaxWith σ' d (MakeMove b m) true))
            999999 (fun a m _ => by rw [ih (MakeMove b m) true])]
          exact hmv.foldl_eq 999999

/-- C8 (amended): for any two drop-kind iteration orders that enumerate
the same kinds, the legal-move list is determined up to that
permutation, and the top-level full-window score is identical whenever
the explored trees evaluate inside the sentinel window; only the
returned move (tie-breaking) can depend on the order. -/
theorem dropOrder_effect (σ σ' : Board → List PieceType)
    (hperm : ∀ b, (σ b).Perm (σ' b)) (d : Nat) (b : Board) (mx : Bool)
    (h1 : treeBoundedWith σ d b = true) (h2 : treeBoundedWith σ' d b = true) :
    (MinimaxWith σ d b (-999999) 999999 mx).1 =
      (MinimaxWith σ' d b (-999999) 999999 mx).1 ∧
    (GetAllLegalMovesWith b (σ b)).Perm (GetAllLegalMovesWith b (σ' b)) := by
  constructor
  · have hb1 := plainMinimaxWith_bounds σ d b mx h1
    have hb2 := plainMinimaxWith_bounds σ' d b mx h2
    have e1 := (minimaxWith_window σ d b (-999999) 999999 mx (le_refl _)
      (le_refl _) (by omega) h1).1 ⟨hb1.1, hb1.2⟩
    have e2 := (minimaxWith_window σ' d b (-999999) 999999 mx (le_refl _)
      (le_refl _) (by omega) h2).1 ⟨hb2.1, hb2.2⟩
    rw [e1, e2]
    exact plainMinimaxWith_perm σ σ' hperm d b mx
  · exact getAllLegalMovesWith_perm b (σ b) (σ' b) (hperm b)

/-- C8 counterexample: two legitimate iteration orders of the same hand
kinds give a different move list, a different chosen move on a tie
(Gold drop against PromotedPawn drop), and, past the sentinel window, a
different top-level score. -/
theorem dropOrder_counterexample :
    (ordA sTie).Perm (ordB sTie) ∧ ordA sTie = stdKinds sTie ∧
    GetAllLegalMovesWith sTie (ordA sTie) ≠ GetAllLegalMovesWith sTie (ordB sTie) ∧
    (MinimaxWith ordA 1 sTie (-999999) 999999 true).2 ≠
      (MinimaxWith ordB 1 sTie (-999999) 999999 true).2 ∧
    (ordC sNoBoardMoves).Perm (ordD sNoBoardMoves) ∧
    (MinimaxWith ordC 1 sNoBoardMoves (-999999) 999999 true).1 ≠
      (MinimaxWith ordD 1 sNoBoardMoves (-999999) 999999 true).1 := by
  refine ⟨by decide, by decide, by decide, by decide, by decide, by decide⟩

/-- C8 witness: the amended statement applied to the tie position at
depth 1 with the two concrete orders. -/
theorem dropOrder_effect_witness :
    (MinimaxWith ordA 1 sTie (-999999) 999999 true).1 =
      (MinimaxWith ordB 1 sTie (-999999) 999999 true).1 ∧
    (GetAllLegalMovesWith sTie (ordA sTie)).Perm
      (GetAllLegalMovesWith sTie (ordB sTie)) :=
  dropOrder_effect ordA ordB
    (fun _ => List.Perm.swap PieceType.PromotedPawn PieceType.Gold [])
    1 sTie true (by decide) (by decide)

/-- Counting after a single in-bounds write, in additive form. -/
theorem countP_set_add {α : Type} (p : α → Bool) :
    ∀ (l : List α) (i : Nat) (x : α) (h : i < l.length),
      (l.set i x).countP p + (if p (l.get ⟨i, h⟩) then 1 else 0) =
        l.countP p + (if p x then 1 else 0) := by
  intro l
  induction l with
  | nil => intro i x h; simp at h
  | cons a as ih =>
    intro i x h
    cases i with
    | zero =>
      simp only [List.set, List.countP_cons, List.get]
      omega
    | succ i =>
      simp only [List.set, List.countP_cons, List.get]
      have := ih i x (Nat.lt_of_succ_lt_succ h)
      omega

/-- Counting after removing the first occurrence, in additive form. -/
theorem countP_removeFirst (p : PieceType → Bool) :
    ∀ (l : List PieceType) (x : PieceType), x ∈ l →
      (removeFirst l x).countP p + (if p x then 1 else 0) = l.countP p := by
  intro l
  induction l with
  | nil => intro x hx; simp at hx
  | cons a as ih =>
    intro x hx
    rw [removeFirst]
    by_cases hax : a = x
    · rw [if_pos hax, List.countP_cons, hax]
    · rw [if_neg hax, List.countP_cons, List.countP_cons]
      have hxas : x ∈ as := by
        rcases List.mem_cons.mp hx with h | h
        · exact absurd h.symm hax
        · exact h
      have := ih x hxas
      omega

/-- Removal never introduces new elements. -/
theorem mem_removeFirst (x k : PieceType) :
    ∀ (l : List PieceType), x ∈ removeFirst l k → x ∈ l := by
  intro l
  induction l with
  | nil => intro hx; simp [removeFirst] at hx
  | cons a as ih =>
    intro hx
    rw [removeFirst] at hx
    split_ifs at hx
    · exact List.mem_cons_of_mem a hx
    · rcases List.mem_cons.mp hx with h | h
      · exact h ▸ List.mem_cons_self a as
      · exact List.mem_cons_of_mem a (ih h)

/-- Two distinct satisfying members force a count of at least two. -/
theorem two_distinct_countP {α : Type} (p : α → Bool) :
    ∀ (l : List α) (a c : α), a ∈ l → c ∈ l → a ≠ c →
      p a = true → p c = true → 2 ≤ l.countP p := by
  intro l
  induction l with
  | nil => intro a c ha _ _ _ _; simp at ha
  | cons x xs ih =>
    intro a c ha hc hne hpa hpc
    rw [List.countP_cons]
    rcases List.mem_cons.mp ha with h1 | h1
    · rcases List.mem_cons.mp hc with h2 | h2
      · exact absurd (h1.trans h2.symm) hne
      · have hpos : 0 < xs.countP p :=
          List.countP_pos_iff.mpr ⟨c, h2, hpc⟩
        rw [← h1, hpa]
        norm_num
        omega
    · rcases List.mem_cons.mp hc with h2 | h2
      · have hpos : 0 < xs.countP p :=
          List.countP_pos_iff.mpr ⟨a, h1, hpa⟩
        rw [← h2, hpc]
        norm_num
        omega
      · have := ih a c h1 h2 hne hpa hpc
        omega

/-- In-bounds coordinates index inside the 25-cell grid. -/
theorem idx_lt (r c : Int) (h1 : 0 ≤ r) (h2 : r < 5) (h3 : 0 ≤ c) (h4 : c < 5) :
    idx r c < 25 := by
  unfold idx
  omega

/-- Distinct in-bounds coordinates have distinct flat indices. -/
theorem idx_inj (r1 c1 r2 c2 : Int)
    (ha1 : 0 ≤ r1) (ha2 : r1 < 5) (ha3 : 0 ≤ c1) (ha4 : c1 < 5)
    (hb1 : 0 ≤ r2) (hb2 : r2 < 5) (hb3 : 0 ≤ c2) (hb4 : c2 < 5)
    (hne : r1 ≠ r2 ∨ c1 ≠ c2) : idx r1 c1 ≠ idx r2 c2 := by
  unfold idx
  omega

/-- An in-bounds read is the flat-list element. -/
theorem getCell_eq_get (g : List Piece) (r c : Int)
    (h1 : 0 ≤ r) (h2 : r < 5) (h3 : 0 ≤ c) (h4 : c < 5) (hlen : g.length = 25) :
    getCell g r c = g.get ⟨idx r c, by rw [hlen]; exact idx_lt r c h1 h2 h3 h4⟩ := by
  unfold getCell
  rw [if_pos ⟨h1, h2, h3, h4⟩,
    List.getD_eq_getElem g emptyPiece (by rw [hlen]; exact idx_lt r c h1 h2 h3 h4)]
  rfl

/-- An in-bounds write is the flat-list update. -/
theorem setCell_eq_set (g : List Piece) (r c : Int) (p : Piece)
    (h1 : 0 ≤ r) (h2 : r < 5) (h3 : 0 ≤ c) (h4 : c < 5) :
    setCell g r c p = g.set (idx r c) p := by
  unfold setCell
  rw [if_pos ⟨h1, h2, h3, h4⟩]

/-- Demotion is idempotent. -/
theorem demote_demote (t : PieceType) : demote (demote t) = demote t := by
  cases t <;> rfl

/-- Promotion inside MakeMove does not change the base kind. -/
theorem demote_promoteType (t : PieceType) : demote (promoteType t) = demote t := by
  cases t <;> rfl

/-- Demotion maps real kinds to real kinds. -/
theorem demote_ne_empty (t : PieceType) (h : t ≠ PieceType.Empty) :
    demote t ≠ PieceType.Empty := by
  cases t <;> simp [demote] at h ⊢

/-- Promotion maps real kinds to real kinds. -/
theorem promoteType_ne_empty (t : PieceType) (h : t ≠ PieceType.Empty) :
    promoteType t ≠ PieceType.Empty := by
  cases t <;> simp [promoteType] at h ⊢

/-- A typeless piece never counts toward a real base kind. -/
theorem count_empty_cell (k : PieceType) (hk : k ≠ PieceType.Empty) (p : Piece)
    (hp : p.type = PieceType.Empty) :
    decide (demote p.type = k) = false := by
  rw [hp]
  simp [demote]
  exact fun h => hk h.symm

/-- MakeMove conserves the per-base-kind material count for every legal
move from a well-formed position. -/
theorem makeMove_kindCount (b : Board) (m : Move) (hwf : WFBoard b)
    (hok : MoveOK b m) (k : PieceType) (hk : k ≠ PieceType.Empty) :
    kindCount (MakeMove b m) k = kindCount b k := by
  obtain ⟨hlen, hiff, hturn, hfe1, hfe2⟩ := hwf
  unfold MoveOK at hok
  by_cases hd : m.isDrop = true
  · rw [if_pos hd] at hok
    obtain ⟨hdp, ht1, ht2, ht3, ht4, hemp⟩ := hok
    have hidx : idx m.toRow m.toCol < b.cells.length := by
      rw [hlen]
      exact idx_lt _ _ ht1 ht2 ht3 ht4
    have hgc := getCell_eq_get b.cells m.toRow m.toCol ht1 ht2 ht3 ht4 hlen
    have holdp : decide (demote (b.cells.get
        ⟨idx m.toRow m.toCol, hidx⟩).type = k) = false := by
      refine count_empty_cell k hk _ ?_
      refine (hiff _ (List.get_mem b.cells _ _)).mp ?_
      rw [← hgc]
      exact hemp
    have hset := countP_set_add (fun p => decide (demote p.type = k)) b.cells
      (idx m.toRow m.toCol) ⟨m.dropPiece, b.currentTurn⟩ hidx
    rw [holdp] at hset
    simp only [if_neg Bool.false_ne_true] at hset
    have hsetcell : setCell b.cells m.toRow m.toCol ⟨m.dropPiece, b.currentTurn⟩ =
        b.cells.set (idx m.toRow m.toCol) ⟨m.dropPiece, b.currentTurn⟩ :=
      setCell_eq_set b.cells m.toRow m.toCol _ ht1 ht2 ht3 ht4
    by_cases hts : b.currentTurn = Player.Second
    · have hmm : MakeMove b m =
          { cells := setCell b.cells m.toRow m.toCol ⟨m.dropPiece, b.currentTurn⟩
            firstHand := b.firstHand
            secondHand := removeFirst b.secondHand m.dropPiece
            currentTurn := flipTurn b.currentTurn } := by
        simp [MakeMove, hd, hts]
      have hdp2 : m.dropPiece ∈ b.secondHand := by
        rw [moverHand, if_pos hts] at hdp
        exact hdp
      have hrem := countP_removeFirst (fun t => decide (demote t = k))
        b.secondHand m.dropPiece hdp2
      beta_reduce at hrem
      rw [hmm]
      unfold kindCount
      simp only [hsetcell]
      omega
    · have hmm : MakeMove b m =
          { cells := setCell b.cells m.toRow m.toCol ⟨m.dropPiece, b.currentTurn⟩
            firstHand := removeFirst b.firstHand m.dropPiece
            secondHand := b.secondHand
            currentTurn := flipTurn b.currentTurn } := by
        simp [MakeMove, hd, hts]
      have hdp2 : m.dropPiece ∈ b.firstHand := by
        rw [moverHand, if_neg hts] at hdp
        exact hdp
      have hrem := countP_removeFirst (fun t => decide (demote t = k))
        b.firstHand m.dropPiece hdp2
      beta_reduce at hrem
      rw [hmm]
      unfold kindCount
      simp only [hsetcell]
      omega
  · rw [if_neg hd] at hok
    obtain ⟨ha1, ha2, ha3, ha4, ht1, ht2, ht3, ht4, hne, howner, hnone, hopp⟩ := hok
    have hito : idx m.toRow m.toCol < b.cells.length := by
      rw [hlen]
      exact idx_lt _ _ ht1 ht2 ht3 ht4
    have hifrom : idx m.fromRow m.fromCol < b.cells.length := by
      rw [hlen]
      exact idx_lt _ _ ha1 ha2 ha3 ha4
    have hgcto := getCell_eq_get b.cells m.toRow m.toCol ht1 ht2 ht3 ht4 hlen
    have hgcfrom := getCell_eq_get b.cells m.fromRow m.fromCol ha1 ha2 ha3 ha4 hlen
    have hine : idx m.toRow m.toCol ≠ idx m.fromRow m.fromCol := by
      refine idx_inj _ _ _ _ ht1 ht2 ht3 ht4 ha1 ha2 ha3 ha4 ?_
      rcases hne with h | h
      · exact Or.inl (Ne.symm h)
      · exact Or.inr (Ne.symm h)
    have hpp : decide (demote (if m.promote = true then
        (⟨promoteType (getCell b.cells m.fromRow m.fromCol).type,
          (getCell b.cells m.fromRow m.fromCol).owner⟩ : Piece)
        else getCell b.cells m.fromRow m.fromCol).type = k) =
        decide (demote (getCell b.cells m.fromRow m.fromCol).type = k) := by
      by_cases hpr : m.promote = true
      · rw [if_pos hpr]
        show decide (demote (promoteType (getCell b.cells m.fromRow m.fromCol).type) = k) = _
        rw [demote_promoteType]
      · rw [if_neg hpr]
    have hset1 := countP_set_add (fun p => decide (demote p.type = k)) b.cells
      (idx m.toRow m.toCol)
      (if m.promote = true then
        (⟨promoteType (getCell b.cells m.fromRow m.fromCol).type,
          (getCell b.cells m.fromRow m.fromCol).owner⟩ : Piece)
        else getCell b.cells m.fromRow m.fromCol) hito
    have hlen1 : (b.cells.set (idx m.toRow m.toCol)
        (if m.promote = true then
          (⟨promoteType (getCell b.cells m.fromRow m.fromCol).type,
            (getCell b.cells m.fromRow m.fromCol).owner⟩ : Piece)
          else getCell b.cells m.fromRow m.fromCol)).length = b.cells.length :=
      List.length_set b.cells _ _
    have hifrom1 : idx m.fromRow m.fromCol < (b.cells.set (idx m.toRow m.toCol)
        (if m.promote = true then
          (⟨promoteType (getCell b.cells m.fromRow m.fromCol).type,
            (getCell b.cells m.fromRow m.fromCol).owner⟩ : Piece)
          else getCell b.cells m.fromRow m.fromCol)).length := by
      rw [hlen1]
      exact hifrom
    have hset2 := countP_set_add (fun p => decide (demote p.type = k))
      (b.cells.set (idx m.toRow m.toCol)
        (if m.promote = true then
          (⟨promoteType (getCell b.cells m.fromRow m.fromCol).type,
            (getCell b.cells m.fromRow m.fromCol).owner⟩ : Piece)
          else getCell b.cells m.fromRow m.fromCol))
      (idx m.fromRow m.fromCol) emptyPiece hifrom1
    have hget12 : (b.cells.set (idx m.toRow m.toCol)
        (if m.promote = true then
          (⟨promoteType (getCell b.cells m.fromRow m.fromCol).type,
            (getCell b.cells m.fromRow m.fromCol).owner⟩ : Piece)
          else getCell b.cells m.fromRow m.fromCol)).get
        ⟨idx m.fromRow m.fromCol, hifrom1⟩ =
        b.cells.get ⟨idx m.fromRow m.fromCol, hifrom⟩ := by
      rw [List.get_eq_getElem, List.get_eq_getElem]
      exact List.getElem_set_ne hine _
    have hempty0 : decide (demote (emptyPiece).type = k) = false :=
      count_empty_cell k hk emptyPiece rfl
    rw [hget12] at hset2
    rw [hempty0] at hset2
    simp only [if_neg Bool.false_ne_true] at hset2
    have hsc1 : setCell b.cells m.toRow m.toCol
        (if m.promote = true then
          (⟨promoteType (getCell b.cells m.fromRow m.fromCol).type,
            (getCell b.cells m.fromRow m.fromCol).owner⟩ : Piece)
          else getCell b.cells m.fromRow m.fromCol) =
        b.cells.set (idx m.toRow m.toCol)
        (if m.promote = true then
          (⟨promoteType (getCell b.cells m.fromRow m.fromCol).type,
            (getCell b.cells m.fromRow m.fromCol).owner⟩ : Piece)
          else getCell b.cells m.fromRow m.fromCol) :=
      setCell_eq_set b.cells m.toRow m.toCol _ ht1 ht2 ht3 ht4
    have hsc2 : setCell (b.cells.set (idx m.toRow m.toCol)
        (if m.promote = true then
          (⟨promoteType (getCell b.cells m.fromRow m.fromCol).type,
            (getCell b.cells m.fromRow m.fromCol).owner⟩ : Piece)
          else getCell b.cells m.fromRow m.fromCol))
        m.fromRow m.fromCol emptyPiece =
        (b.cells.set (idx m.toRow m.toCol)
        (if m.promote = true then
          (⟨promoteType (getCell b.cells m.fromRow m.fromCol).type,
            (getCell b.cells m.fromRow m.fromCol).owner⟩ : Piece)
          else getCell b.cells m.fromRow m.fromCol)).set
          (idx m.fromRow m.fromCol) emptyPiece :=
      setCell_eq_set _ m.fromRow m.fromCol emptyPiece ha1 ha2 ha3 ha4
    have hcast : decide (demote (b.cells.get
        ⟨idx m.toRow m.toCol, hito⟩).type = k) =
        decide (demote (getCell b.cells m.toRow m.toCol).type = k) := by
      rw [hgcto]
    rw [hcast] at hset1
    have hfromc : decide (demote (b.cells.get
        ⟨idx m.fromRow m.fromCol, hifrom⟩).type = k) =
        decide (demote (getCell b.cells m.fromRow m.fromCol).type = k) := by
      rw [hgcfrom]
    rw [hfromc] at hset2
    rw [hpp] at hset1
    by_cases hcap : (getCell b.cells m.toRow m.toCol).owner ≠ Player.None
    · have hcapc : List.countP (fun t => decide (demote t = k))
          [demote (getCell b.cells m.toRow m.toCol).type] =
          if decide (demote (getCell b.cells m.toRow m.toCol).type = k) = true
          then 1 else 0 := by
        simp only [List.countP_cons, List.countP_nil, demote_demote]
        omega
      by_cases htf : b.currentTurn = Player.First
      · have hmm : MakeMove b m =
            { cells := setCell (setCell b.cells m.toRow m.toCol
                (if m.promote = true then
                  (⟨promoteType (getCell b.cells m.fromRow m.fromCol).type,
                    (getCell b.cells m.fromRow m.fromCol).owner⟩ : Piece)
                  else getCell b.cells m.fromRow m.fromCol))
                m.fromRow m.fromCol emptyPiece
              firstHand := b.firstHand ++ [demote (getCell b.cells m.toRow m.toCol).type]
              secondHand := b.secondHand
              currentTurn := flipTurn b.currentTurn } := by
          simp [MakeMove, hd, hcap, htf]
        rw [hmm]
        unfold kindCount
        simp only [hsc1, hsc2]
        rw [List.countP_append, hcapc]
        omega
      · have hmm : MakeMove b m =
            { cells := setCell (setCell b.cells m.toRow m.toCol
                (if m.promote = true then
                  (⟨promoteType (getCell b.cells m.fromRow m.fromCol).type,
                    (getCell b.cells m.fromRow m.fromCol).owner⟩ : Piece)
                  else getCell b.cells m.fromRow m.fromCol))
                m.fromRow m.fromCol emptyPiece
              firstHand := b.firstHand
              secondHand := b.secondHand ++ [demote (getCell b.cells m.toRow m.toCol).type]
              currentTurn := flipTurn b.currentTurn } := by
          simp [MakeMove, hd, hcap, htf]
        rw [hmm]
        unfold kindCount
        simp only [hsc1, hsc2]
        rw [List.countP_append, hcapc]
        omega
    · have hmm : MakeMove b m =
          { cells := setCell (setCell b.cells m.toRow m.toCol
              (if m.promote = true then
                (⟨promoteType (getCell b.cells m.fromRow m.fromCol).type,
                  (getCell b.cells m.fromRow m.fromCol).owner⟩ : Piece)
                else getCell b.cells m.fromRow m.fromCol))
              m.fromRow m.fromCol emptyPiece
            firstHand := b.firstHand
            secondHand := b.secondHand
            currentTurn := flipTurn b.currentTurn } := by
        simp [MakeMove, hd, hcap]
      rw [hmm]
      unfold kindCount
      simp only [hsc1, hsc2]
      have hcapE : decide (demote (getCell b.cells m.toRow m.toCol).type = k) = false := by
        refine count_empty_cell k hk _ ?_
        rw [hgcto]
        refine (hiff _ (List.get_mem b.cells _ _)).mp ?_
        rw [← hgcto]
        exact not_not.mp hcap
      rw [hcapE] at hset1
      simp only [if_neg Bool.false_ne_true] at hset1
      omega

/-- A valid destination is in bounds and not occupied by the source
square's owner. -/
theorem isValidMove_ok (b : Board) (r c nr nc : Int)
    (h : isValidMove b r c nr nc = true) :
    isInBoard nr nc = true ∧
    (getCell b.cells nr nc).owner ≠ (getCell b.cells r c).owner := by
  unfold isValidMove at h
  by_cases hb : isInBoard nr nc = true
  · rw [if_pos hb] at h
    exact ⟨hb, of_decide_eq_true h⟩
  · rw [if_neg hb] at h
    exact absurd h Bool.false_ne_true

/-- Every step move is a board move from its source square to a
distinct in-bounds destination not owned by the source's owner. -/
theorem stepMoves_ok (b : Board) (row col : Int) (dirs : List (Int × Int))
    (hdirs : ∀ d ∈ dirs, d.1 ≠ 0 ∨ d.2 ≠ 0) (m : Move)
    (hm : m ∈ stepMoves b row col dirs) :
    m.isDrop = false ∧ m.fromRow = row ∧ m.fromCol = col ∧
    isInBoard m.toRow m.toCol = true ∧
    (m.fromRow ≠ m.toRow ∨ m.fromCol ≠ m.toCol) ∧
    (getCell b.cells m.toRow m.toCol).owner ≠ (getCell b.cells row col).owner := by
  simp only [stepMoves, List.mem_flatMap] at hm
  obtain ⟨d, hd, hmd⟩ := hm
  by_cases hv : isValidMove b row col (row + d.1) (col + d.2) = true
  · rw [if_pos hv] at hmd
    have hme := List.mem_singleton.mp hmd
    subst hme
    obtain ⟨hib, how⟩ := isValidMove_ok b row col (row + d.1) (col + d.2) hv
    refine ⟨rfl, rfl, rfl, hib, ?_, how⟩
    rcases hdirs d hd with h1 | h1
    · exact Or.inl (by show row ≠ row + d.1; omega)
    · exact Or.inr (by show col ≠ col + d.2; omega)
  · rw [if_neg hv] at hmd
    exact absurd hmd (List.not_mem_nil m)

/-- Every slide move is a board move from its source square to a
distinct in-bounds destination not owned by the slider's owner. -/
theorem slideLoop_ok (b : Board) (piece : Piece) (row col : Int)
    (d : Int × Int) (hd : d.1 ≠ 0 ∨ d.2 ≠ 0) :
    ∀ fuel, fuel ≤ 4 → ∀ m, m ∈ slideLoop b piece row col d fuel →
      m.isDrop = false ∧ m.fromRow = row ∧ m.fromCol = col ∧
      isInBoard m.toRow m.toCol = true ∧
      (m.fromRow ≠ m.toRow ∨ m.fromCol ≠ m.toCol) ∧
      (getCell b.cells m.toRow m.toCol).owner ≠ piece.owner := by
  intro fuel
  induction fuel with
  | zero =>
    intro _ m hm
    exact absurd hm (List.not_mem_nil m)
  | succ n ih =>
    intro hle m hm
    rw [slideLoop] at hm
    by_cases h1 : ¬ isInBoard (row + d.1 * ((5 - (n + 1) : Nat) : Int))
        (col + d.2 * ((5 - (n + 1) : Nat) : Int)) = true
    · rw [if_pos h1] at hm
      exact absurd hm (List.not_mem_nil m)
    · rw [if_neg h1] at hm
      by_cases h2 : (getCell b.cells (row + d.1 * ((5 - (n + 1) : Nat) : Int))
          (col + d.2 * ((5 - (n + 1) : Nat) : Int))).owner = piece.owner
      · rw [if_pos h2] at hm
        exact absurd hm (List.not_mem_nil m)
      · rw [if_neg h2] at hm
        have hi : (1 : Int) ≤ ((5 - (n + 1) : Nat) : Int) := by omega
        have hne : m ∈ ((if (piece.type = PieceType.Bishop ∨
              piece.type = PieceType.Rook) ∧
              canPromote piece.owner (row + d.1 * ((5 - (n + 1) : Nat) : Int)) = true
              then [⟨row, col, row + d.1 * ((5 - (n + 1) : Nat) : Int),
                col + d.2 * ((5 - (n + 1) : Nat) : Int), false, PieceType.Empty, true⟩]
              else []) ++
            [⟨row, col, row + d.1 * ((5 - (n + 1) : Nat) : Int),
              col + d.2 * ((5 - (n + 1) : Nat) : Int), false, PieceType.Empty, false⟩]) ∨
            m ∈ slideLoop b piece row col d n := by
          rcases List.mem_append.mp hm with hnode | hrest
          · exact Or.inl hnode
          · split_ifs at hrest with h4
            · exact absurd hrest (List.not_mem_nil m)
            · exact Or.inr hrest
        rcases hne with hnode | hrest
        · have hdst : m = (⟨row, col, row + d.1 * ((5 - (n + 1) : Nat) : Int),
              col + d.2 * ((5 - (n + 1) : Nat) : Int), false, PieceType.Empty, true⟩ :
                Move) ∨
              m = (⟨row, col, row + d.1 * ((5 - (n + 1) : Nat) : Int),
              col + d.2 * ((5 - (n + 1) : Nat) : Int), false, PieceType.Empty, false⟩ :
                Move) := by
            rcases List.mem_append.mp hnode with hp | hn
            · split_ifs at hp with h3
              · exact Or.inl (List.mem_singleton.mp hp)
              · exact absurd hp (List.not_mem_nil m)
            · exact Or.inr (List.mem_singleton.mp hn)
          have hib : isInBoard (row + d.1 * ((5 - (n + 1) : Nat) : Int))
              (col + d.2 * ((5 - (n + 1) : Nat) : Int)) = true := not_not.mp h1
          have hsep : row ≠ row + d.1 * ((5 - (n + 1) : Nat) : Int) ∨
              col ≠ col + d.2 * ((5 - (n + 1) : Nat) : Int) := by
            rcases hd with hx | hx
            · have hmul : d.1 * ((5 - (n + 1) : Nat) : Int) ≠ 0 :=
                mul_ne_zero hx (by omega)
              exact Or.inl (by omega)
            · have hmul : d.2 * ((5 - (n + 1) : Nat) : Int) ≠ 0 :=
                mul_ne_zero hx (by omega)
              exact Or.inr (by omega)
          rcases hdst with hdst | hdst
          · subst hdst
            exact ⟨rfl, rfl, rfl, hib, hsep, h2⟩
          · subst hdst
            exact ⟨rfl, rfl, rfl, hib, hsep, h2⟩
        · exact ih (by omega) m hrest


/-- Gold step offsets are nonzero. -/
theorem goldMoves_nonzero (p : Player) :
    ∀ d ∈ getGoldMoves p, d.1 ≠ 0 ∨ d.2 ≠ 0 := by
  cases p <;> decide

/-- Silver step offsets are nonzero. -/
theorem silverMoves_nonzero (p : Player) :
    ∀ d ∈ getSilverMoves p, d.1 ≠ 0 ∨ d.2 ≠ 0 := by
  cases p <;> decide

/-- Bishop sliding directions are nonzero. -/
theorem bishopDirs_nonzero : ∀ d ∈ bishopDirs, d.1 ≠ 0 ∨ d.2 ≠ 0 := by
  decide

/-- Rook sliding directions are nonzero. -/
theorem rookDirs_nonzero : ∀ d ∈ rookDirs, d.1 ≠ 0 ∨ d.2 ≠ 0 := by
  decide

/-- The two variants of a validated step share source, destination and
the generator's sanity facts. -/
theorem validStep_facts (b : Board) (row col nr nc : Int)
    (hv : isValidMove b row col nr nc = true)
    (hne : row ≠ nr ∨ col ≠ nc) (m : Move)
    (hm : m = (⟨row, col, nr, nc, false, PieceType.Empty, true⟩ : Move) ∨
          m = (⟨row, col, nr, nc, false, PieceType.Empty, false⟩ : Move)) :
    m.isDrop = false ∧ m.fromRow = row ∧ m.fromCol = col ∧
    isInBoard m.toRow m.toCol = true ∧
    (m.fromRow ≠ m.toRow ∨ m.fromCol ≠ m.toCol) ∧
    (getCell b.cells m.toRow m.toCol).owner ≠ (getCell b.cells row col).owner := by
  obtain ⟨hib, how⟩ := isValidMove_ok b row col nr nc hv
  rcases hm with rfl | rfl
  · exact ⟨rfl, rfl, rfl, hib, hne, how⟩
  · exact ⟨rfl, rfl, rfl, hib, hne, how⟩

/-- Every generated board move starts at its scanned square (owned by
the side to move), lands in bounds on a distinct square not owned by
the mover, and is not a drop. -/
theorem getPossibleMoves_ok (b : Board) (row col : Int) (m : Move)
    (hm : m ∈ GetPossibleMoves b row col) :
    (m.isDrop = false ∧ m.fromRow = row ∧ m.fromCol = col ∧
     isInBoard m.toRow m.toCol = true ∧
     (m.fromRow ≠ m.toRow ∨ m.fromCol ≠ m.toCol) ∧
     (getCell b.cells m.toRow m.toCol).owner ≠ (getCell b.cells row col).owner) ∧
    (getCell b.cells row col).owner = b.currentTurn ∧
    (getCell b.cells row col).owner ≠ Player.None := by
  simp only [GetPossibleMoves] at hm
  by_cases hguard : (getCell b.cells row col).owner = Player.None ∨
      (getCell b.cells row col).owner ≠ b.currentTurn
  · rw [if_pos hguard] at hm
    exact absurd hm (List.not_mem_nil m)
  · rw [if_neg hguard] at hm
    push_neg at hguard
    obtain ⟨hnone, hcur⟩ := hguard
    refine ⟨?_, hcur, hnone⟩
    cases hty : (getCell b.cells row col).type with
    | Empty =>
      simp only [hty] at hm
      exact absurd hm (List.not_mem_nil m)
    | King =>
      simp only [hty] at hm
      exact stepMoves_ok b row col kingDirs (by decide) m hm
    | Gold =>
      simp only [hty] at hm
      exact stepMoves_ok b row col _ (goldMoves_nonzero _) m hm
    | PromotedSilver =>
      simp only [hty] at hm
      exact stepMoves_ok b row col _ (goldMoves_nonzero _) m hm
    | PromotedPawn =>
      simp only [hty] at hm
      exact stepMoves_ok b row col _ (goldMoves_nonzero _) m hm
    | Silver =>
      simp only [hty] at hm
      rw [List.mem_flatMap] at hm
      obtain ⟨d, hd, hmd⟩ := hm
      by_cases hv : isValidMove b row col (row + d.1) (col + d.2) = true
      · rw [if_pos hv] at hmd
        have hdst : m = (⟨row, col, row + d.1, col + d.2, false,
              PieceType.Empty, true⟩ : Move) ∨
            m = (⟨row, col, row + d.1, col + d.2, false,
              PieceType.Empty, false⟩ : Move) := by
          rcases List.mem_append.mp hmd with hp | hn
          · split_ifs at hp with h3
            · exact Or.inl (List.mem_singleton.mp hp)
            · exact absurd hp (List.not_mem_nil m)
          · exact Or.inr (List.mem_singleton.mp hn)
        refine validStep_facts b row col (row + d.1) (col + d.2) hv ?_ m hdst
        rcases silverMoves_nonzero (getCell b.cells row col).owner d hd with h1 | h1
        · exact Or.inl (by omega)
        · exact Or.inr (by omega)
      · rw [if_neg hv] at hmd
        exact absurd hmd (List.not_mem_nil m)
    | Bishop =>
      simp only [hty] at hm
      rw [List.mem_flatMap] at hm
      obtain ⟨d, hd, hmd⟩ := hm
      exact slideLoop_ok b (getCell b.cells row col) row col d
        (bishopDirs_nonzero d hd) 4 (by omega) m hmd
    | Rook =>
      simp only [hty] at hm
      rw [List.mem_flatMap] at hm
      obtain ⟨d, hd, hmd⟩ := hm
      exact slideLoop_ok b (getCell b.cells row col) row col d
        (rookDirs_nonzero d hd) 4 (by omega) m hmd
    | PromotedBishop =>
      simp only [hty] at hm
      rcases List.mem_append.mp hm with hs | hst
      · rw [List.mem_flatMap] at hs
        obtain ⟨d, hd, hmd⟩ := hs
        exact slideLoop_ok b (getCell b.cells row col) row col d
          (bishopDirs_nonzero d hd) 4 (by omega) m hmd
      · exact stepMoves_ok b row col rookDirs (by decide) m hst
    | PromotedRook =>
      simp only [hty] at hm
      rcases List.mem_append.mp hm with hs | hst
      · rw [List.mem_flatMap] at hs
        obtain ⟨d, hd, hmd⟩ := hs
        exact slideLoop_ok b (getCell b.cells row col) row col d
          (rookDirs_nonzero d hd) 4 (by omega) m hmd
      · exact stepMoves_ok b row col bishopDirs (by decide) m hst
    | Pawn =>
      simp only [hty] at hm
      by_cases hv : isValidMove b row col
          (row + (if (getCell b.cells row col).owner = Player.Second then 1 else -1))
          col = true
      · rw [if_pos hv] at hm
        have hdst : m = (⟨row, col,
              row + (if (getCell b.cells row col).owner = Player.Second then 1 else -1),
              col, false, PieceType.Empty, true⟩ : Move) ∨
            m = (⟨row, col,
              row + (if (getCell b.cells row col).owner = Player.Second then 1 else -1),
              col, false, PieceType.Empty, false⟩ : Move) := by
          rcases List.mem_append.mp hm with hp | hn
          · by_cases h3 : canPromote (getCell b.cells row col).owner
                (row + (if (getCell b.cells row col).owner = Player.Second
                  then 1 else -1)) = true
            · rw [if_pos h3] at hp
              exact Or.inl (List.mem_singleton.mp hp)
            · rw [if_neg h3] at hp
              exact absurd hp (List.not_mem_nil m)
          · exact Or.inr (List.mem_singleton.mp hn)
        refine validStep_facts b row col _ col hv ?_ m hdst
        have hdir : (if (getCell b.cells row col).owner = Player.Second
            then (1 : Int) else -1) ≠ 0 := by
          split_ifs <;> norm_num
        exact Or.inl (by omega)
      · rw [if_neg hv] at hm
        exact absurd hm (List.not_mem_nil m)


/-- Every move produced by GetAllLegalMoves satisfies the generator's
sanity facts MoveOK. -/
theorem legal_moveOK (b : Board) (m : Move) (hm : m ∈ GetAllLegalMoves b) :
    MoveOK b m := by
  unfold GetAllLegalMoves GetAllLegalMovesWith at hm
  rcases List.mem_append.mp hm with hbm | hdrops
  · simp only [List.mem_flatMap, List.mem_range] at hbm
    obtain ⟨r, hr, c, hc, hmc⟩ := hbm
    split_ifs at hmc with hown
    · obtain ⟨⟨hdrop, hfr, hfc, hib, hne, hopp⟩, hcur, hnone⟩ :=
        getPossibleMoves_ok b r c m hmc
      have hibo : 0 ≤ m.toRow ∧ m.toRow < 5 ∧ 0 ≤ m.toCol ∧ m.toCol < 5 := by
        unfold isInBoard at hib
        exact of_decide_eq_true hib
      unfold MoveOK
      rw [if_neg (by rw [hdrop]; exact Bool.false_ne_true)]
      refine ⟨by omega, by omega, by omega, by omega,
        hibo.1, hibo.2.1, hibo.2.2.1, hibo.2.2.2, hne, ?_, ?_, ?_⟩
      · rw [hfr, hfc]
        exact hcur
      · rw [hfr, hfc]
        exact hnone
      · rw [← hcur]
        exact hopp
    · exact absurd hmc (List.not_mem_nil m)
  · rw [mem_getDropMovesWith] at hdrops
    obtain ⟨k, hk, r, hr, c, hc, hownN, hp1, hp2, rfl⟩ := hdrops
    unfold MoveOK
    rw [if_pos rfl]
    unfold stdKinds at hk
    refine ⟨List.mem_dedup.mp hk, ?_, ?_, ?_, ?_, hownN⟩
    · show (0 : Int) ≤ (r : Int)
      omega
    · show (r : Int) < 5
      omega
    · show (0 : Int) ≤ (c : Int)
      omega
    · show (c : Int) < 5
      omega


/-- setCell preserves the grid length. -/
theorem setCell_length (g : List Piece) (r c : Int) (p : Piece) :
    (setCell g r c p).length = g.length := by
  unfold setCell
  split_ifs
  · exact List.length_set g _ p
  · rfl

/-- A member of a written grid is an old member or the written piece. -/
theorem mem_setCell (g : List Piece) (r c : Int) (p q : Piece)
    (hq : q ∈ setCell g r c p) : q ∈ g ∨ q = p := by
  unfold setCell at hq
  split_ifs at hq
  · rcases List.mem_or_eq_of_mem_set hq with h | h
    · exact Or.inl h
    · exact Or.inr h
  · exact Or.inl hq

/-- The flipped turn is never None. -/
theorem flipTurn_ne_none (p : Player) : flipTurn p ≠ Player.None := by
  cases p <;> decide

/-- MakeMove preserves the structural board invariant on moves the
generator can produce. -/
theorem makeMove_wf (b : Board) (m : Move) (hwf : WFBoard b) (hok : MoveOK b m) :
    WFBoard (MakeMove b m) := by
  obtain ⟨hlen, hiff, hturn, hfe1, hfe2⟩ := hwf
  unfold MoveOK at hok
  unfold WFBoard
  by_cases hd : m.isDrop = true
  · rw [if_pos hd] at hok
    obtain ⟨hdp, ht1, ht2, ht3, ht4, hemp⟩ := hok
    have hdropt : m.dropPiece ≠ PieceType.Empty := by
      intro he
      unfold moverHand at hdp
      split_ifs at hdp with hts
      · exact hfe2 (he ▸ hdp)
      · exact hfe1 (he ▸ hdp)
    have hcells : ∀ q ∈ setCell b.cells m.toRow m.toCol ⟨m.dropPiece, b.currentTurn⟩,
        (q.owner = Player.None ↔ q.type = PieceType.Empty) := by
      intro q hq
      rcases mem_setCell _ _ _ _ _ hq with h | h
      · exact hiff q h
      · subst h
        constructor
        · intro ho
          exact absurd ho hturn
        · intro ht
          exact absurd ht hdropt
    have hlen2 : (setCell b.cells m.toRow m.toCol
        ⟨m.dropPiece, b.currentTurn⟩).length = 25 := by
      rw [setCell_length]
      exact hlen
    by_cases hts : b.currentTurn = Player.Second
    · have hmm : MakeMove b m =
          { cells := setCell b.cells m.toRow m.toCol ⟨m.dropPiece, b.currentTurn⟩
            firstHand := b.firstHand
            secondHand := removeFirst b.secondHand m.dropPiece
            currentTurn := flipTurn b.currentTurn } := by
        simp [MakeMove, hd, hts]
      rw [hmm]
      refine ⟨hlen2, hcells, flipTurn_ne_none _, hfe1, ?_⟩
      intro hmem
      exact hfe2 (mem_removeFirst _ _ _ hmem)
    · have hmm : MakeMove b m =
          { cells := setCell b.cells m.toRow m.toCol ⟨m.dropPiece, b.currentTurn⟩
            firstHand := removeFirst b.firstHand m.dropPiece
            secondHand := b.secondHand
            currentTurn := flipTurn b.currentTurn } := by
        simp [MakeMove, hd, hts]
      rw [hmm]
      refine ⟨hlen2, hcells, flipTurn_ne_none _, ?_, hfe2⟩
      intro hmem
      exact hfe1 (mem_removeFirst _ _ _ hmem)
  · rw [if_neg hd] at hok
    obtain ⟨ha1, ha2, ha3, ha4, ht1, ht2, ht3, ht4, hne, howner, hnone, hopp⟩ := hok
    have hpmem : getCell b.cells m.fromRow m.fromCol ∈ b.cells := by
      rw [getCell_eq_get b.cells m.fromRow m.fromCol ha1 ha2 ha3 ha4 hlen]
      exact List.get_mem b.cells _ _
    have hcmem : getCell b.cells m.toRow m.toCol ∈ b.cells := by
      rw [getCell_eq_get b.cells m.toRow m.toCol ht1 ht2 ht3 ht4 hlen]
      exact List.get_mem b.cells _ _
    have hptype : (getCell b.cells m.fromRow m.fromCol).type ≠ PieceType.Empty := by
      intro he
      exact hnone ((hiff _ hpmem).mpr he)
    have hcapE : (getCell b.cells m.toRow m.toCol).owner ≠ Player.None →
        demote (getCell b.cells m.toRow m.toCol).type ≠ PieceType.Empty := by
      intro hcap
      refine demote_ne_empty _ ?_
      intro he
      exact hcap ((hiff _ hcmem).mpr he)
    have hiff2 : ∀ q ∈ setCell (setCell b.cells m.toRow m.toCol
        (if m.promote = true then
          (⟨promoteType (getCell b.cells m.fromRow m.fromCol).type,
            (getCell b.cells m.fromRow m.fromCol).owner⟩ : Piece)
          else getCell b.cells m.fromRow m.fromCol))
        m.fromRow m.fromCol emptyPiece,
        (q.owner = Player.None ↔ q.type = PieceType.Empty) := by
      intro q hq
      rcases mem_setCell _ _ _ _ _ hq with h | h
      · rcases mem_setCell _ _ _ _ _ h with h2 | h2
        · exact hiff q h2
        · subst h2
          by_cases hpr : m.promote = true
          · rw [if_pos hpr]
            constructor
            · intro ho
              exact absurd ho hnone
            · intro htype
              exact absurd htype (promoteType_ne_empty _ hptype)
          · rw [if_neg hpr]
            exact hiff _ hpmem
      · subst h
        exact ⟨fun _ => rfl, fun _ => rfl⟩
    have hlen2 : (setCell (setCell b.cells m.toRow m.toCol
        (if m.promote = true then
          (⟨promoteType (getCell b.cells m.fromRow m.fromCol).type,
            (getCell b.cells m.fromRow m.fromCol).owner⟩ : Piece)
          else getCell b.cells m.fromRow m.fromCol))
        m.fromRow m.fromCol emptyPiece).length = 25 := by
      rw [setCell_length, setCell_length]
      exact hlen
    by_cases hcap : (getCell b.cells m.toRow m.toCol).owner ≠ Player.None
    · by_cases htf : b.currentTurn = Player.First
      · have hmm : MakeMove b m =
            { cells := setCell (setCell b.cells m.toRow m.toCol
                (if m.promote = true then
                  (⟨promoteType (getCell b.cells m.fromRow m.fromCol).type,
                    (getCell b.cells m.fromRow m.fromCol).owner⟩ : Piece)
                  else getCell b.cells m.fromRow m.fromCol))
                m.fromRow m.fromCol emptyPiece
              firstHand := b.firstHand ++ [demote (getCell b.cells m.toRow m.toCol).type]
              secondHand := b.secondHand
              currentTurn := flipTurn b.currentTurn } := by
          simp [MakeMove, hd, hcap, htf]
        rw [hmm]
        refine ⟨hlen2, hiff2, flipTurn_ne_none _, ?_, hfe2⟩
        intro hmem
        rcases List.mem_append.mp hmem with h | h
        · exact hfe1 h
        · exact hcapE hcap (List.mem_singleton.mp h).symm
      · have hmm : MakeMove b m =
            { cells := setCell (setCell b.cells m.toRow m.toCol
                (if m.promote = true then
                  (⟨promoteType (getCell b.cells m.fromRow m.fromCol).type,
                    (getCell b.cells m.fromRow m.fromCol).owner⟩ : Piece)
                  else getCell b.cells m.fromRow m.fromCol))
                m.fromRow m.fromCol emptyPiece
              firstHand := b.firstHand
              secondHand := b.secondHand ++ [demote (getCell b.cells m.toRow m.toCol).type]
              currentTurn := flipTurn b.currentTurn } := by
          simp [MakeMove, hd, hcap, htf]
        rw [hmm]
        refine ⟨hlen2, hiff2, flipTurn_ne_none _, hfe1, ?_⟩
        intro hmem
        rcases List.mem_append.mp hmem with h | h
        · exact hfe2 h
        · exact hcapE hcap (List.mem_singleton.mp h).symm
    · have hmm : MakeMove b m =
          { cells := setCell (setCell b.cells m.toRow m.toCol
              (if m.promote = true then
                (⟨promoteType (getCell b.cells m.fromRow m.fromCol).type,
                  (getCell b.cells m.fromRow m.fromCol).owner⟩ : Piece)
                else getCell b.cells m.fromRow m.fromCol))
              m.fromRow m.fromCol emptyPiece
            firstHand := b.firstHand
            secondHand := b.secondHand
            currentTurn := flipTurn b.currentTurn } := by
        simp [MakeMove, hd, hcap]
      rw [hmm]
      exact ⟨hlen2, hiff2, flipTurn_ne_none _, hfe1, hfe2⟩


/-- The initial board is well formed. -/
theorem newBoard_wf : WFBoard NewBoard := by
  unfold WFBoard
  refine ⟨by decide, ?_, by decide, by decide, by decide⟩
  decide

/-- Every reachable state is well formed. -/
theorem reachable_wf (b : Board) (hb : Reachable b) : WFBoard b := by
  induction hb with
  | init => exact newBoard_wf
  | step hr hm ih => exact makeMove_wf _ _ ih (legal_moveOK _ _ hm)

/-- Along reachable states the per-base-kind material count never
changes. -/
theorem kindCount_invariant (b : Board) (hb : Reachable b) (k : PieceType)
    (hk : k ≠ PieceType.Empty) : kindCount b k = kindCount NewBoard k := by
  induction hb with
  | init => rfl
  | step hr hm ih =>
    rw [makeMove_kindCount _ _ (reachable_wf _ hr) (legal_moveOK _ _ hm) k hk]
    exact ih

/-- C2: in every state reachable from NewBoard through GetAllLegalMoves,
and for every real piece kind, the number of pieces of that base kind
over the grid plus both hands equals its count in NewBoard: material is
conserved up to promotion state, which MakeMove changes on promotion
and resets on capture. -/
theorem material_conserved (b : Board) (hb : Reachable b) (k : PieceType)
    (hk : k ≠ PieceType.Empty) :
    kindCount b k = kindCount NewBoard k :=
  kindCount_invariant b hb k hk

/-- C2 witness: after First's opening pawn push the Pawn material count
still matches NewBoard's. -/
theorem material_conserved_witness :
    Reachable ps1 ∧ PieceType.Pawn ≠ PieceType.Empty ∧
    kindCount ps1 PieceType.Pawn = kindCount NewBoard PieceType.Pawn :=
  ⟨Reachable.step Reachable.init (by decide), by decide,
    material_conserved ps1 (Reachable.step Reachable.init (by decide))
      PieceType.Pawn (by decide)⟩

/-- C2 counterexample: counted by raw kind (the struct's PieceKind
field, as the claim states it), material is not conserved: five plies
in, a pawn promotes while capturing, and the reachable state ps5 holds
one raw Pawn against NewBoard's two. -/
theorem material_counterexample :
    Reachable ps5 ∧
    rawKindCount ps5 PieceType.Pawn ≠ rawKindCount NewBoard PieceType.Pawn :=
  ⟨Reachable.step (Reachable.step (Reachable.step (Reachable.step
      (Reachable.step Reachable.init (by decide)) (by decide)) (by decide))
      (by decide)) (by decide),
    by decide⟩

/-- C10: in every reachable state where the game is not over, no
generated drop deposits a King: both Kings are on the board, base-kind
material conservation caps the King count at NewBoard's two, so no hand
holds a King for GetDropMoves to offer. -/
theorem no_king_drops (b : Board) (m : Move) (hb : Reachable b)
    (hgo : (IsGameOver b).1 = false) (hm : m ∈ GetDropMoves b) :
    m.dropPiece ≠ PieceType.King := by
  intro hking
  have hmem : PieceType.King ∈ moverHand b := by
    unfold GetDropMoves at hm
    rw [mem_getDropMovesWith] at hm
    obtain ⟨k, hk, r, hr, c, hc, h1, h2, h3, hmeq⟩ := hm
    have hkK : k = PieceType.King := by
      rw [← hking, hmeq]
    subst hkK
    unfold stdKinds at hk
    exact List.mem_dedup.mp hk
  rw [isGameOver_eq] at hgo
  by_cases h1 : kingCountOf b Player.First = 0
  · rw [if_pos h1] at hgo
    exact absurd hgo (by decide)
  · rw [if_neg h1] at hgo
    by_cases h2 : kingCountOf b Player.Second = 0
    · rw [if_pos h2] at hgo
      exact absurd hgo (by decide)
    · have h1p : 0 < b.cells.countP fun p =>
          decide (p.type = PieceType.King ∧ p.owner = Player.First) :=
        Nat.pos_of_ne_zero h1
      have h2p : 0 < b.cells.countP fun p =>
          decide (p.type = PieceType.King ∧ p.owner = Player.Second) :=
        Nat.pos_of_ne_zero h2
      obtain ⟨pF, hpF, hdF⟩ := List.countP_pos_iff.mp h1p
      obtain ⟨pS, hpS, hdS⟩ := List.countP_pos_iff.mp h2p
      have hFprop := of_decide_eq_true hdF
      have hSprop := of_decide_eq_true hdS
      have hne : pF ≠ pS := by
        intro he
        rw [he] at hFprop
        rw [hFprop.2] at hSprop
        exact absurd hSprop.2 (by decide)
      have hgrid : 2 ≤ b.cells.countP fun p =>
          decide (demote p.type = PieceType.King) := by
        refine two_distinct_countP _ b.cells pF pS hpF hpS hne ?_ ?_
        · exact decide_eq_true (by rw [hFprop.1]; decide)
        · exact decide_eq_true (by rw [hSprop.1]; decide)
      have hhand : 0 < (moverHand b).countP fun t =>
          decide (demote t = PieceType.King) :=
        List.countP_pos_iff.mpr ⟨PieceType.King, hmem, by decide⟩
      have hinv : kindCount b PieceType.King = 2 := by
        rw [kindCount_invariant b hb PieceType.King (by decide)]
        decide
      unfold kindCount at hinv
      unfold moverHand at hhand
      split_ifs at hhand
      · omega
      · omega

/-- C10 witness: four plies in, First holds a captured Pawn; the pawn
drop onto (2,2) is generated and indeed drops no King. -/
theorem no_king_drops_witness :
    Reachable cs4 ∧ (IsGameOver cs4).1 = false ∧
    (⟨-1, -1, 2, 2, true, PieceType.Pawn, false⟩ : Move) ∈ GetDropMoves cs4 ∧
    (⟨-1, -1, 2, 2, true, PieceType.Pawn, false⟩ : Move).dropPiece ≠
      PieceType.King := by
  have hreach : Reachable cs4 :=
    Reachable.step (Reachable.step (Reachable.step (Reachable.step
      Reachable.init (by decide)) (by decide)) (by decide)) (by decide)
  exact ⟨hreach, by decide, by decide,
    no_king_drops cs4 ⟨-1, -1, 2, 2, true, PieceType.Pawn, false⟩ hreach
      (by decide) (by decide)⟩


end Theorems

end MiniShogi
